import Mathlib

/-!
# Verification of the Meeting_Note text-normalization pipeline

Shallow embedding of the deterministic post-processing pipeline of
`src/services/ai_service.py` (class `AIService`): the four stages
`_fix_common_errors`, `_format_section_headers`, `_fix_bullet_format`
and `_add_signature`, composed in that order by
`extract_text_from_base64_images` (lines 141-147).

Text is modelled as `List Char`.  Python regular expressions are embedded
as deterministic scanners: every pattern used by the source is backtracking
free (each `*`-class is followed by a literal outside the class), so a
maximal-munch scanner computes exactly the Python match.  Character classes
(`\s`, `\w`, rstrip's whitespace, `[A-Z]` under `re.IGNORECASE`) are
modelled over their ASCII core, which covers every character the source,
its tests and the spec exercise.

`re.sub` is modelled by `reSub`: a left-to-right scan that at each position
either copies one character or, on a match of length `k >= 1`, emits the
replacement and resumes after the match (as Python does, with word-boundary
context taken from the original text).  The scan carries the previously
scanned original character, from which both `\b` (word boundary) and the
`re.MULTILINE` line-start anchor are computed.
-/

namespace MeetingNote

/-- ASCII core of Python's `\s` class (and of `str.rstrip()`'s default
whitespace): space, tab, newline, vertical tab, form feed, carriage return. -/
def isPySpace (c : Char) : Bool :=
  c == ' ' || c == '\t' || c == '\n' || c == '\x0b' || c == '\x0c' || c == '\r'

/-- ASCII core of Python's `\w` class: letters, digits, underscore. -/
def isWordChar (c : Char) : Bool :=
  c.isAlpha || c.isDigit || c == '_'

/-- Case-insensitive character comparison (Python `re.IGNORECASE`). -/
def lowEq (a b : Char) : Bool :=
  a.toLower == b.toLower

/-- The class `[.\s]` of the `_fix_common_errors` patterns. -/
def isDotWs (c : Char) : Bool :=
  c == '.' || isPySpace c

/-- Length of the maximal prefix of `s` whose characters satisfy `p`
(maximal munch for `p*`). -/
def runLen (p : Char → Bool) : List Char → Nat
  | [] => 0
  | c :: cs => if p c then runLen p cs + 1 else 0

/-- `\b` on the left of a match: the match starts with a word character,
so there is a boundary iff the preceding character is absent or non-word. -/
def bdryBefore : Option Char → Bool
  | none => true
  | some c => !isWordChar c

/-- `\b` on the right of a match: the match ends with a word character,
so there is a boundary iff the following character is absent or non-word. -/
def bdryAfter : List Char → Bool
  | [] => true
  | c :: _ => !isWordChar c

/-- `re.MULTILINE` `^`: start of text or right after a newline. -/
def atLineStart : Option Char → Bool
  | none => true
  | some c => c == '\n'

/-- Case-insensitive list prefix test. -/
def ciPref : List Char → List Char → Bool
  | [], _ => true
  | _ :: _, [] => false
  | p :: ps, c :: cs => lowEq p c && ciPref ps cs

/-- Case-insensitive substring test (`re.search` of a literal under
`re.IGNORECASE`). -/
def containsCI (pat : List Char) : List Char → Bool
  | [] => ciPref pat []
  | c :: cs => ciPref pat (c :: cs) || containsCI pat cs

/-- Exact list prefix test. -/
def prefOf : List Char → List Char → Bool
  | [], _ => true
  | _ :: _, [] => false
  | p :: ps, c :: cs => p == c && prefOf ps cs

/-- Exact substring test. -/
def hasSub (pat : List Char) : List Char → Bool
  | [] => pat == []
  | c :: cs => prefOf pat (c :: cs) || hasSub pat cs

/-- Exact suffix test. -/
def endsWithL (t suf : List Char) : Bool :=
  (t.reverse.take suf.length) == suf.reverse

/-- A matcher: given the previously scanned character (context of the
current position) and the remaining text, return `none` (no match here) or
`some (k, repl)`: a match of `k` characters to be replaced by `repl`. -/
def Matcher : Type := Option Char → List Char → Option (Nat × List Char)

/-- `re.sub` as a left-to-right scan.  `fuel` bounds the recursion and is
instantiated with the length of the scanned text; every matcher used below
consumes at least one character per match, so the fuel never runs out. -/
def reSub (m : Matcher) : Nat → Option Char → List Char → List Char
  | 0, _, s => s
  | _ + 1, _, [] => []
  | fuel + 1, prev, c :: cs =>
    match m prev (c :: cs) with
    | some (k, repl) =>
        repl ++ reSub m fuel ((List.take k (c :: cs)).getLast?) (List.drop k (c :: cs))
    | none => c :: reSub m fuel (some c) cs

/-- Run a substitution over a whole text (initial context: start of text). -/
def runSub (m : Matcher) (t : List Char) : List Char :=
  reSub m t.length none t

/-! ## Stage 1: `_fix_common_errors` (source lines 165-186)

Three sequential `re.sub(..., flags=re.IGNORECASE)` calls:
  1. `\bM[.\s]*xL\b`      -> `MBL`
  2. `\bM[.\s]*x\s*L\b`   -> `MBL`
  3. `\b([A-Z])[.\s]*xL\b` -> `\1BL`
-/

/-- Matcher of `\bM[.\s]*xL\b` (ignorecase), replacement `MBL`. -/
def mFix1 : Matcher := fun prev s =>
  match s with
  | [] => none
  | c :: cs =>
    if bdryBefore prev && lowEq c 'm' then
      let k := runLen isDotWs cs
      match cs.drop k with
      | x :: l :: rest =>
        if lowEq x 'x' && lowEq l 'l' && bdryAfter rest then
          some (k + 3, "MBL".toList)
        else none
      | _ => none
    else none

/-- Matcher of `\bM[.\s]*x\s*L\b` (ignorecase), replacement `MBL`. -/
def mFix2 : Matcher := fun prev s =>
  match s with
  | [] => none
  | c :: cs =>
    if bdryBefore prev && lowEq c 'm' then
      let k := runLen isDotWs cs
      match cs.drop k with
      | x :: r2 =>
        if lowEq x 'x' then
          let j := runLen isPySpace r2
          match r2.drop j with
          | l :: rest =>
            if lowEq l 'l' && bdryAfter rest then
              some (k + j + 3, "MBL".toList)
            else none
          | [] => none
        else none
      | [] => none
    else none

/-- Matcher of `\b([A-Z])[.\s]*xL\b` (ignorecase: the class matches any
ASCII letter), replacement `\1BL` (the matched letter kept as written). -/
def mFix3 : Matcher := fun prev s =>
  match s with
  | [] => none
  | c :: cs =>
    if bdryBefore prev && c.isAlpha then
      let k := runLen isDotWs cs
      match cs.drop k with
      | x :: l :: rest =>
        if lowEq x 'x' && lowEq l 'l' && bdryAfter rest then
          some (k + 3, [c, 'B', 'L'])
        else none
      | _ => none
    else none

/-- `_fix_common_errors`: the three substitutions applied in source order. -/
def fixCommonErrors (t : List Char) : List Char :=
  runSub mFix3 (runSub mFix2 (runSub mFix1 t))

/-! ## Stage 2: `_format_section_headers` (source lines 225-254)

For each header in `["Attendees", "Action Items", "General Notes",
"Personal"]` and for each of the four patterns
  `^(H):`  `^(H)$`  `\n(H):`  `\n(H)\n`
(in that order), if the text does not already contain `\*\*H\*\*`
(case-insensitive search), substitute the pattern by `**\1**` under
`re.MULTILINE | re.IGNORECASE`.  Note that the replacement `**\1**`
consumes the whole match: the colon of patterns 1 and 3 and the newlines
of patterns 3 and 4 are not re-emitted. -/

def kwAttendees : List Char := "Attendees".toList
def kwActionItems : List Char := "Action Items".toList
def kwGeneralNotes : List Char := "General Notes".toList
def kwPersonal : List Char := "Personal".toList

/-- Matcher of `^(H):` under MULTILINE/IGNORECASE; the replacement wraps
the keyword as written and drops the colon. -/
def mHdr1 (K : List Char) : Matcher := fun prev s =>
  if atLineStart prev && ciPref (K ++ [':']) s then
    some (K.length + 1, "**".toList ++ s.take K.length ++ "**".toList)
  else none

/-- Matcher of `^(H)$` under MULTILINE/IGNORECASE (zero-width anchors:
only the keyword itself is consumed). -/
def mHdr2 (K : List Char) : Matcher := fun prev s =>
  if atLineStart prev && ciPref K s &&
      (match s.drop K.length with
       | [] => true
       | c :: _ => c == '\n') then
    some (K.length, "**".toList ++ s.take K.length ++ "**".toList)
  else none

/-- Matcher of `\n(H):`; the leading newline and the colon are consumed
and not re-emitted. -/
def mHdr3 (K : List Char) : Matcher := fun _ s =>
  match s with
  | [] => none
  | c :: cs =>
    if c == '\n' && ciPref (K ++ [':']) cs then
      some (K.length + 2, "**".toList ++ cs.take K.length ++ "**".toList)
    else none

/-- Matcher of `\n(H)\n`; both newlines are consumed and not re-emitted. -/
def mHdr4 (K : List Char) : Matcher := fun _ s =>
  match s with
  | [] => none
  | c :: cs =>
    if c == '\n' && ciPref K cs &&
        (match cs.drop K.length with
         | d :: _ => d == '\n'
         | [] => false) then
      some (K.length + 2, "**".toList ++ cs.take K.length ++ "**".toList)
    else none

/-- The guard's search pattern `\*\*H\*\*` (searched case-insensitively). -/
def wrapPat (K : List Char) : List Char :=
  "**".toList ++ K ++ "**".toList

/-- One guarded substitution of `_format_section_headers`: skipped when the
document already contains the wrapped keyword (case-insensitively). -/
def hdrPass (K : List Char) (m : List Char → Matcher) (t : List Char) : List Char :=
  if containsCI (wrapPat K) t then t else runSub (m K) t

/-- Processing of one keyword: the four guarded substitutions in order. -/
def hdrStep (K : List Char) (t : List Char) : List Char :=
  hdrPass K mHdr4 (hdrPass K mHdr3 (hdrPass K mHdr2 (hdrPass K mHdr1 t)))

/-- `_format_section_headers`: the four keywords in source order. -/
def formatSectionHeaders (t : List Char) : List Char :=
  hdrStep kwPersonal (hdrStep kwGeneralNotes (hdrStep kwActionItems (hdrStep kwAttendees t)))

/-! ## Stage 3: `_fix_bullet_format` (source lines 188-223)

`text.split('\n')`, then per line `re.match(r'^(\s*)([-•])\s+(.+)$', line)`:
on a match the line is replaced by `' -  ' + group(3)`, otherwise kept;
finally `'\n'.join(...)`. -/

/-- Python `text.split('\n')`. -/
def splitNl : List Char → List (List Char)
  | [] => [[]]
  | c :: cs =>
    if c == '\n' then [] :: splitNl cs
    else
      match splitNl cs with
      | [] => [[c]]
      | l :: ls => (c :: l) :: ls

/-- Python `'\n'.join(...)`. -/
def joinNl : List (List Char) → List Char
  | [] => []
  | [l] => l
  | l :: ls => l ++ '\n' :: joinNl ls

/-- Group 3 of `re.match(r'^(\s*)([-•])\s+(.+)$', line)` on a
newline-free line, `none` when the line does not match.  `(\s*)` and `\s+`
are maximal-munch; when everything after the marker is whitespace the
engine backtracks one character so that `(.+)` captures the final
whitespace character. -/
def bulletG3 (l : List Char) : Option (List Char) :=
  let rest := l.drop (runLen isPySpace l)
  match rest with
  | [] => none
  | mk :: r2 =>
    if mk == '-' || mk == '•' then
      let j := runLen isPySpace r2
      if j == 0 then none
      else if j < r2.length then some (r2.drop j)
      else if 2 ≤ r2.length then some (r2.drop (r2.length - 1))
      else none
    else none

/-- Per-line transform of `_fix_bullet_format`. -/
def fixLine (l : List Char) : List Char :=
  match bulletG3 l with
  | some g => " -  ".toList ++ g
  | none => l

/-- `_fix_bullet_format`. -/
def fixBulletFormat (t : List Char) : List Char :=
  joinNl ((splitNl t).map fixLine)

/-! ## Stage 4: `_add_signature` (source lines 256-274)

Guard: `re.search(r'(signature\s*:?\s*)?michael', text, re.IGNORECASE)`;
if it matches anywhere the text is returned unchanged.  Otherwise the text
is `rstrip()`ed, two trailing newlines are ensured and `Michael` is
appended. -/

/-- Python `str.rstrip()` (ASCII whitespace). -/
def rstripL (t : List Char) : List Char :=
  (t.reverse.dropWhile isPySpace).reverse

/-- Attempt of the optional group `signature\s*:?\s*` at the current
position, returning the rest of the text on success.  Each `*` is
maximal-munch; the pattern is backtracking-free because `:` is not
whitespace. -/
def sigGroup (s : List Char) : Option (List Char) :=
  if ciPref "signature".toList s then
    let r1 := s.drop 9
    let r2 := r1.drop (runLen isPySpace r1)
    let r3 := match r2 with
      | c :: cs => if c = ':' then cs else r2
      | [] => r2
    some (r3.drop (runLen isPySpace r3))
  else none

/-- Match of `(signature\s*:?\s*)?michael` at the current position. -/
def sigHere (s : List Char) : Bool :=
  ciPref "michael".toList s ||
    (match sigGroup s with
     | some r => ciPref "michael".toList r
     | none => false)

/-- `re.search` of the signature pattern over the whole text. -/
def searchSig : List Char → Bool
  | [] => false
  | c :: cs => sigHere (c :: cs) || searchSig cs

/-- `_add_signature`. -/
def addSignature (t : List Char) : List Char :=
  if searchSig t then t
  else
    let u := rstripL t
    let u2 :=
      if !endsWithL u ['\n', '\n'] then
        if !endsWithL u ['\n'] then u ++ ['\n', '\n'] else u ++ ['\n']
      else u
    u2 ++ "Michael".toList

/-! ## The pipeline (`extract_text_from_base64_images`, lines 141-147) -/

/-- `normalize`: the four stages in source order. -/
def normalize (t : List Char) : List Char :=
  addSignature (fixBulletFormat (formatSectionHeaders (fixCommonErrors t)))

/-! ## Auxiliary scanner notions used by the theorems -/

/-- Lower-cased image of a text (the case-insensitive comparison key). -/
def lowerL (l : List Char) : List Char := l.map Char.toLower

/-- Whether the matcher fires at some position of the scan spine of `s`
(the `re.search` view of a pattern: a match exists somewhere). -/
def anyFire (m : Matcher) : Option Char → List Char → Bool
  | _, [] => false
  | prev, c :: cs => (m prev (c :: cs)).isSome || anyFire m (some c) cs

/-- A faithful relational description of `re.sub`: scanning left to right,
every position either carries no match and its character is copied, or
carries a match whose span is replaced, the scan resuming after the span
with the span's last character as new context. -/
inductive SubRel (m : Matcher) : Option Char → List Char → List Char → Prop
  | nil (prev) : SubRel m prev [] []
  | copy (prev c cs out) : m prev (c :: cs) = none →
      SubRel m (some c) cs out → SubRel m prev (c :: cs) (c :: out)
  | repl (prev s k r out) : m prev s = some (k, r) → 1 ≤ k →
      SubRel m ((s.take k).getLast?) (s.drop k) out →
      SubRel m prev s (r ++ out)

/-! ## Basic list lemmas -/

theorem dropAppend (a b : List Char) (n : Nat) (h : n ≤ a.length) :
    (a ++ b).drop n = a.drop n ++ b := by
  induction a generalizing n with
  | nil => simp at h; simp [h]
  | cons c a ih =>
    cases n with
    | zero => simp
    | succ n => simpa using ih n (by simpa using h)

theorem takeAppend (a b : List Char) (n : Nat) (h : n ≤ a.length) :
    (a ++ b).take n = a.take n := by
  induction a generalizing n with
  | nil => simp at h; simp [h]
  | cons c a ih =>
    cases n with
    | zero => simp
    | succ n => simpa using ih n (by simpa using h)

theorem takeAppendGe (a b : List Char) (n : Nat) (h : a.length ≤ n) :
    (a ++ b).take n = a ++ b.take (n - a.length) := by
  induction a generalizing n with
  | nil => simp
  | cons c a ih =>
    cases n with
    | zero => simp at h
    | succ n => simpa using ih n (by simpa using h)

theorem prefOf_iff (p t : List Char) : prefOf p t = true ↔ ∃ y, t = p ++ y := by
  induction p generalizing t with
  | nil => simp [prefOf]
  | cons c p ih =>
    cases t with
    | nil => simp [prefOf]
    | cons d t =>
      simp only [prefOf, Bool.and_eq_true, beq_iff_eq, ih]
      constructor
      · rintro ⟨h1, y, h2⟩
        exact ⟨y, by simp [h1, h2]⟩
      · rintro ⟨y, h⟩
        injection h with h1 h2
        exact ⟨h1.symm, y, h2⟩

theorem hasSub_iff (p t : List Char) : hasSub p t = true ↔ ∃ x y, t = x ++ p ++ y := by
  induction t with
  | nil =>
    simp only [hasSub, beq_iff_eq]
    constructor
    · intro h; exact ⟨[], [], by simp [h]⟩
    · rintro ⟨x, y, h⟩
      have hl := congrArg List.length h
      simp only [List.length_nil, List.length_append] at hl
      cases p with
      | nil => rfl
      | cons c p => simp only [List.length_cons] at hl; omega
  | cons c t ih =>
    simp only [hasSub, Bool.or_eq_true, prefOf_iff, ih]
    constructor
    · rintro (⟨y, h⟩ | ⟨x, y, h⟩)
      · exact ⟨[], y, by simp [h]⟩
      · exact ⟨c :: x, y, by simp [h]⟩
    · rintro ⟨x, y, h⟩
      cases x with
      | nil => exact Or.inl ⟨y, by simpa using h⟩
      | cons d x =>
        injection h with h1 h2
        exact Or.inr ⟨x, y, h2⟩

theorem endsWith_iff (t suf : List Char) : endsWithL t suf = true ↔ ∃ x, t = x ++ suf := by
  unfold endsWithL
  rw [beq_iff_eq]
  constructor
  · intro h
    refine ⟨(t.reverse.drop suf.length).reverse, ?_⟩
    have hsplit : t.reverse = t.reverse.take suf.length ++ t.reverse.drop suf.length :=
      (List.take_append_drop _ _).symm
    have := congrArg List.reverse hsplit
    simpa [h] using this
  · rintro ⟨x, rfl⟩
    rw [List.reverse_append, takeAppend _ _ _ (by simp)]
    have h : suf.length = suf.reverse.length := by simp
    rw [h, List.take_length]

/-! ## Case-insensitive prefix and substring lemmas -/

theorem lowerL_append (a b : List Char) : lowerL (a ++ b) = lowerL a ++ lowerL b :=
  List.map_append _ _ _

theorem ciPref_iff (p s : List Char) :
    ciPref p s = true ↔ ∃ w y, s = w ++ y ∧ lowerL w = lowerL p := by
  induction p generalizing s with
  | nil =>
    simp only [ciPref, true_iff]
    exact ⟨[], s, rfl, rfl⟩
  | cons c p ih =>
    cases s with
    | nil =>
      simp only [ciPref, Bool.false_eq_true, false_iff]
      rintro ⟨w, y, h1, h2⟩
      have : w = [] := by
        cases w with
        | nil => rfl
        | cons a w => exact absurd h1 (by simp)
      subst this
      simp [lowerL] at h2
    | cons d s =>
      simp only [ciPref, Bool.and_eq_true, lowEq, beq_iff_eq, ih]
      constructor
      · rintro ⟨h1, w, y, h2, h3⟩
        exact ⟨d :: w, y, by simp [h2], by simp [lowerL] at h3 ⊢; exact ⟨h1.symm, h3⟩⟩
      · rintro ⟨w, y, h1, h2⟩
        cases w with
        | nil => simp [lowerL] at h2
        | cons a w =>
          injection h1 with h1a h1b
          simp only [lowerL, List.map_cons, List.cons.injEq] at h2
          subst h1a
          exact ⟨h2.1.symm, w, y, h1b, h2.2⟩

theorem ciPref_lower_take (p s : List Char) :
    ciPref p s = true ↔ p.length ≤ s.length ∧ lowerL (s.take p.length) = lowerL p := by
  induction p generalizing s with
  | nil => simp [ciPref, lowerL]
  | cons c p ih =>
    cases s with
    | nil => simp [ciPref]
    | cons d s =>
      simp only [ciPref, Bool.and_eq_true, lowEq, beq_iff_eq, ih, List.length_cons,
        List.take_succ_cons, lowerL, List.map_cons, List.cons.injEq]
      constructor
      · rintro ⟨h1, h2, h3⟩
        exact ⟨by omega, h1.symm, h3⟩
      · rintro ⟨h1, h2, h3⟩
        exact ⟨h2.symm, by omega, h3⟩

theorem ciPref_extract (p x y : List Char) (h : ciPref p (x ++ y) = true) :
    ciPref (p.take x.length) x = true := by
  induction x generalizing p with
  | nil => simp [ciPref]
  | cons c x ih =>
    cases p with
    | nil => simp [ciPref]
    | cons q p =>
      simp only [List.cons_append, ciPref, Bool.and_eq_true] at h
      simp only [List.length_cons, List.take_succ_cons, ciPref, Bool.and_eq_true]
      exact ⟨h.1, ih p h.2⟩

theorem ciPref_stop (p x y : List Char) (h : ciPref (p.take x.length) x = false) :
    ciPref p (x ++ y) = false := by
  cases hcc : ciPref p (x ++ y) with
  | false => rfl
  | true => rw [ciPref_extract p x y hcc] at h; exact Bool.noConfusion h

theorem ciPref_of_lower (p w y : List Char) (h : lowerL w = lowerL p) :
    ciPref p (w ++ y) = true := by
  rw [ciPref_iff]
  exact ⟨w, y, rfl, h⟩

theorem ciPref_self (p y : List Char) : ciPref p (p ++ y) = true :=
  ciPref_of_lower p p y rfl

theorem containsCI_iff (p t : List Char) :
    containsCI p t = true ↔ ∃ x w y, t = x ++ w ++ y ∧ lowerL w = lowerL p := by
  induction t with
  | nil =>
    simp only [containsCI, ciPref_iff]
    constructor
    · rintro ⟨w, y, h1, h2⟩
      exact ⟨[], w, y, by simp [h1], h2⟩
    · rintro ⟨x, w, y, h1, h2⟩
      have hx : x = [] := by
        cases x with
        | nil => rfl
        | cons a x => exact absurd h1 (by simp)
      subst hx
      exact ⟨w, y, by simpa using h1, h2⟩
  | cons c t ih =>
    simp only [containsCI, Bool.or_eq_true, ciPref_iff, ih]
    constructor
    · rintro (⟨w, y, h1, h2⟩ | ⟨x, w, y, h1, h2⟩)
      · exact ⟨[], w, y, by simpa using h1, h2⟩
      · exact ⟨c :: x, w, y, by simp [h1], h2⟩
    · rintro ⟨x, w, y, h1, h2⟩
      cases x with
      | nil => exact Or.inl ⟨w, y, by simpa using h1, h2⟩
      | cons d x =>
        injection h1 with h1a h1b
        exact Or.inr ⟨x, w, y, h1b, h2⟩

theorem containsCI_of_hasSub (p t : List Char) (h : hasSub p t = true) :
    containsCI p t = true := by
  rw [hasSub_iff] at h
  rcases h with ⟨x, y, rfl⟩
  rw [containsCI_iff]
  exact ⟨x, p, y, rfl, rfl⟩

/-! ## Scanner lemmas -/

theorem noFire_id (m : Matcher) (s : List Char) :
    ∀ prev fuel, anyFire m prev s = false → reSub m fuel prev s = s := by
  induction s with
  | nil => intro prev fuel _; cases fuel <;> rfl
  | cons c cs ih =>
    intro prev fuel h
    cases hmc : m prev (c :: cs) with
    | some kr => rw [anyFire, hmc] at h; simp at h
    | none =>
      rw [anyFire, hmc] at h
      simp only [Option.isSome_none, Bool.false_or] at h
      cases fuel with
      | zero => rfl
      | succ fuel =>
        simp only [reSub, hmc]
        rw [ih (some c) fuel h]

theorem subRel_reSub (m : Matcher)
    (hm : ∀ prev s k r, m prev s = some (k, r) → 1 ≤ k) :
    ∀ fuel s prev, s.length ≤ fuel → SubRel m prev s (reSub m fuel prev s) := by
  intro fuel
  induction fuel with
  | zero =>
    intro s prev h
    have : s = [] := List.eq_nil_of_length_eq_zero (Nat.le_zero.mp h)
    subst this
    exact SubRel.nil prev
  | succ fuel ih =>
    intro s prev h
    cases s with
    | nil => exact SubRel.nil prev
    | cons c cs =>
      simp only [reSub]
      cases hmc : m prev (c :: cs) with
      | none =>
        exact SubRel.copy prev c cs _ hmc (ih cs (some c) (by simpa using Nat.le_of_succ_le_succ h))
      | some kr =>
        rcases kr with ⟨k, r⟩
        have hk := hm prev (c :: cs) k r hmc
        refine SubRel.repl prev (c :: cs) k r _ hmc hk ?_
        apply ih
        have hlen : (List.drop k (c :: cs)).length = (c :: cs).length - k := by simp
        have : (c :: cs).length ≤ fuel + 1 := h
        omega

/-! ## Signature-stage lemmas -/

theorem dropWhile_head (p : Char → Bool) (l : List Char) (c : Char) (rest : List Char)
    (h : l.dropWhile p = c :: rest) : p c = false := by
  induction l with
  | nil => simp [List.dropWhile] at h
  | cons a l ih =>
    rw [List.dropWhile_cons] at h
    split at h
    · exact ih h
    · next hp =>
      injection h with h1 _
      subst h1
      simpa using hp

theorem rstrip_rev (t : List Char) : (rstripL t).reverse = t.reverse.dropWhile isPySpace := by
  unfold rstripL
  rw [List.reverse_reverse]

theorem rstrip_nl1 (t : List Char) : endsWithL (rstripL t) ['\n'] = false := by
  unfold endsWithL
  rw [rstrip_rev]
  cases h : t.reverse.dropWhile isPySpace with
  | nil => decide
  | cons c rest =>
    have hc : isPySpace c = false := dropWhile_head isPySpace t.reverse c rest h
    have hcn : c ≠ '\n' := by
      intro he
      rw [he] at hc
      exact absurd hc (by decide)
    simp [List.take, hcn]

theorem rstrip_nl2 (t : List Char) : endsWithL (rstripL t) ['\n', '\n'] = false := by
  unfold endsWithL
  rw [rstrip_rev]
  cases h : t.reverse.dropWhile isPySpace with
  | nil => decide
  | cons c rest =>
    have hc : isPySpace c = false := dropWhile_head isPySpace t.reverse c rest h
    have hcn : c ≠ '\n' := by
      intro he
      rw [he] at hc
      exact absurd hc (by decide)
    simp [List.take, hcn]

theorem rstrip_eq_self (t : List Char) (c : Char) (rest : List Char)
    (h : t.reverse = c :: rest) (hc : isPySpace c = false) : rstripL t = t := by
  unfold rstripL
  rw [h, List.dropWhile_cons, if_neg (by simp [hc]), ← h, List.reverse_reverse]

theorem rstrip_append_nonspace (t x s : List Char) (c : Char)
    (h : t = x ++ s ++ [c]) (hc : isPySpace c = false) : rstripL t = t := by
  apply rstrip_eq_self t c ((x ++ s).reverse)
  · rw [h]
    simp
  · exact hc

theorem addSignature_found (t : List Char) (h : searchSig t = true) :
    addSignature t = t := by
  unfold addSignature
  rw [h]
  rfl

theorem addSignature_not_found (t : List Char) (h : searchSig t = false) :
    addSignature t = rstripL t ++ "\n\nMichael".toList := by
  unfold addSignature
  rw [h]
  simp only [Bool.false_eq_true, if_false]
  rw [rstrip_nl1, rstrip_nl2]
  simp only [Bool.not_false, if_true]
  rw [List.append_assoc]
  rfl

theorem sigHere_of_lower (w b : List Char) (h : lowerL w = lowerL ("michael".toList)) :
    sigHere (w ++ b) = true := by
  unfold sigHere
  rw [ciPref_of_lower _ _ _ h]
  rfl

theorem searchSig_mem (a s : List Char) (h1 : sigHere s = true) (h2 : s ≠ []) :
    searchSig (a ++ s) = true := by
  induction a with
  | nil =>
    cases s with
    | nil => exact absurd rfl h2
    | cons c cs => simp [searchSig, h1]
  | cons c a ih => simp [searchSig, ih]

theorem exists_pref_drop (l : List Char) (n : Nat) : ∃ x, l = x ++ l.drop n :=
  ⟨l.take n, (List.take_append_drop n l).symm⟩

theorem sigGroup_split (s r : List Char) (h : sigGroup s = some r) : ∃ x, s = x ++ r := by
  unfold sigGroup at h
  split at h
  · injection h with h
    subst h
    obtain ⟨x1, h1⟩ := exists_pref_drop s 9
    obtain ⟨x2, h2⟩ := exists_pref_drop (s.drop 9) (runLen isPySpace (s.drop 9))
    set r2 := (s.drop 9).drop (runLen isPySpace (s.drop 9)) with hr2
    clear_value r2
    clear hr2
    cases r2 with
    | nil =>
      exact ⟨s, by simp⟩
    | cons c cs =>
      by_cases hc : c = ':'
      · subst hc
        simp only [if_pos rfl]
        obtain ⟨x4, h4⟩ := exists_pref_drop cs (runLen isPySpace cs)
        refine ⟨x1 ++ (x2 ++ (':' :: x4)), ?_⟩
        conv_lhs => rw [h1, h2, h4]
        simp [List.append_assoc]
      · simp only [if_neg hc]
        obtain ⟨x4, h4⟩ := exists_pref_drop (c :: cs) (runLen isPySpace (c :: cs))
        refine ⟨x1 ++ (x2 ++ x4), ?_⟩
        conv_lhs => rw [h1, h2, h4]
        simp [List.append_assoc]
  · exact absurd h (by simp)

theorem searchSig_extract (t : List Char) (h : searchSig t = true) :
    ∃ a w b, t = a ++ w ++ b ∧ lowerL w = lowerL ("michael".toList) := by
  induction t with
  | nil => simp [searchSig] at h
  | cons c cs ih =>
    rw [searchSig, Bool.or_eq_true] at h
    rcases h with h | h
    · unfold sigHere at h
      rw [Bool.or_eq_true] at h
      rcases h with h | h
      · rw [ciPref_iff] at h
        rcases h with ⟨w, y, h1, h2⟩
        exact ⟨[], w, y, by simpa using h1, h2⟩
      · split at h
        · next r heq =>
          rw [ciPref_iff] at h
          rcases h with ⟨w, y, h1, h2⟩
          rcases sigGroup_split _ _ heq with ⟨x, hx⟩
          exact ⟨x, w, y, by rw [hx, h1, List.append_assoc], h2⟩
        · exact absurd h (by simp)
    · rcases ih h with ⟨a, w, b, h1, h2⟩
      exact ⟨c :: a, w, b, by simp [h1], h2⟩

/-! ## Claim C6 -/

/-- Claim C6: Signature Guarantor no-op case.  For every text in which the
case-insensitive pattern `(signature:?\s*)?michael` matches anywhere — that
is, every text containing a case-insensitive occurrence of `michael`, since
the signature prefix group is optional — `_add_signature` returns the text
unchanged, appending no second signature. -/
theorem claimC6 (t a w b : List Char) (h1 : t = a ++ w ++ b)
    (h2 : lowerL w = lowerL ("michael".toList)) : addSignature t = t := by
  apply addSignature_found
  have hw : w ++ b ≠ [] := by
    have hlen := congrArg List.length h2
    simp [lowerL] at hlen
    intro hco
    rcases List.append_eq_nil.mp hco with ⟨hw1, _⟩
    rw [hw1] at hlen
    simp at hlen
  rw [h1, List.append_assoc]
  exact searchSig_mem a (w ++ b) (sigHere_of_lower w b h2) hw

/-- Witness for C6 at the concrete input `Signature: Michael`. -/
theorem claimC6_witness :
    addSignature ("Signature: Michael".toList) = "Signature: Michael".toList :=
  claimC6 _ ("Signature: ".toList) ("Michael".toList) [] (by decide) (by decide)

/-! ## Claim C7 -/

/-- Claim C7: Signature Guarantor append case.  For every text in which the
signature pattern has no match, the result is the text with trailing
whitespace stripped, then exactly two trailing newlines, then `Michael`;
in particular the empty string yields `"\n\nMichael"`, and a text ending
`"...see you then."` with no signature mention yields output ending
`"...see you then.\n\nMichael"`. -/
theorem claimC7 :
    (∀ t, searchSig t = false → addSignature t = rstripL t ++ "\n\nMichael".toList) ∧
    addSignature [] = "\n\nMichael".toList ∧
    (∀ t, searchSig t = false → endsWithL t ("...see you then.".toList) = true →
      endsWithL (addSignature t) ("...see you then.\n\nMichael".toList) = true) := by
  refine ⟨addSignature_not_found, by decide, ?_⟩
  intro t hs he
  rcases (endsWith_iff _ _).mp he with ⟨x, hx⟩
  have hsuf : ("...see you then.".toList : List Char) = "...see you then".toList ++ ['.'] := by
    decide
  have hr : rstripL t = t := by
    apply rstrip_append_nonspace t x ("...see you then".toList) '.'
    · rw [hx, hsuf, ← List.append_assoc]
    · decide
  rw [addSignature_not_found t hs, hr, endsWith_iff]
  refine ⟨x, ?_⟩
  rw [hx, List.append_assoc]
  rfl

/-- Witness for C7 at the concrete inputs of its hypotheses. -/
theorem claimC7_witness :
    addSignature ("...see you then.".toList)
        = rstripL ("...see you then.".toList) ++ "\n\nMichael".toList ∧
    endsWithL (addSignature ("...see you then.".toList))
        ("...see you then.\n\nMichael".toList) = true :=
  ⟨claimC7.1 _ (by decide), claimC7.2.2 ("...see you then.".toList) (by decide) (by decide)⟩

/-! ## Claims C9 and C8 -/

/-- Claim C9: for every input text, including the empty string, the output
of the full pipeline contains the substring `michael` case-insensitively
and is therefore never empty: the Signature Guarantor either detects such
a substring and returns its input unchanged, or appends the literal
`Michael`. -/
theorem claimC9 (t : List Char) :
    (∃ a w b, normalize t = a ++ w ++ b ∧ lowerL w = lowerL ("michael".toList)) ∧
    normalize t ≠ [] := by
  unfold normalize
  set u := fixBulletFormat (formatSectionHeaders (fixCommonErrors t)) with hu
  cases hs : searchSig u with
  | true =>
    rw [addSignature_found u hs]
    obtain ⟨a, w, b, h1, h2⟩ := searchSig_extract u hs
    refine ⟨⟨a, w, b, h1, h2⟩, ?_⟩
    rw [h1]
    intro hco
    rcases List.append_eq_nil.mp hco with ⟨hco1, _⟩
    rcases List.append_eq_nil.mp hco1 with ⟨_, hw⟩
    have hlen := congrArg List.length h2
    rw [hw] at hlen
    simp [lowerL] at hlen
  | false =>
    rw [addSignature_not_found u hs]
    refine ⟨⟨rstripL u ++ ['\n', '\n'], "Michael".toList, [], ?_, by decide⟩, by simp⟩
    rw [List.append_nil, List.append_assoc]
    rfl

/-- Counterexample to Claim C8 as stated: the input `Michael says hi`
already mentions `Michael`, so the pipeline returns it unchanged and the
output does not end with the signature token at all (let alone preceded by
a blank line). -/
theorem claimC8_counterexample :
    normalize ("Michael says hi".toList) = "Michael says hi".toList ∧
    endsWithL (normalize ("Michael says hi".toList)) ("Michael".toList) = false := by
  constructor <;> decide

/-- Claim C8, amended: for every input, either the text produced by the
first three stages already contains a case-insensitive `michael` match and
the pipeline returns that text unchanged (appending nothing, so the
signature is never duplicated), or it does not and the pipeline output is
that text right-stripped with `"\n\nMichael"` appended — in that case the
output does end with the token `Michael` preceded by exactly one blank
line. -/
theorem claimC8 (t : List Char) :
    (normalize t = fixBulletFormat (formatSectionHeaders (fixCommonErrors t)) ∧
      searchSig (fixBulletFormat (formatSectionHeaders (fixCommonErrors t))) = true) ∨
    (normalize t
        = rstripL (fixBulletFormat (formatSectionHeaders (fixCommonErrors t)))
            ++ "\n\nMichael".toList ∧
      endsWithL (normalize t) ("\n\nMichael".toList) = true) := by
  unfold normalize
  set u := fixBulletFormat (formatSectionHeaders (fixCommonErrors t)) with hu
  cases hs : searchSig u with
  | true => exact Or.inl ⟨addSignature_found u hs, rfl⟩
  | false =>
    refine Or.inr ⟨addSignature_not_found u hs, ?_⟩
    rw [addSignature_not_found u hs, endsWith_iff]
    exact ⟨rstripL u, rfl⟩

/-! ## Bullet-stage lemmas and Claim C5 -/

theorem splitNl_ne_nil (t : List Char) : splitNl t ≠ [] := by
  cases t with
  | nil => simp [splitNl]
  | cons c cs =>
    unfold splitNl
    split
    · simp
    · split <;> simp

theorem mem_splitNl_no_nl (t l : List Char) (h : l ∈ splitNl t) : '\n' ∉ l := by
  induction t generalizing l with
  | nil =>
    simp [splitNl] at h
    simp [h]
  | cons c cs ih =>
    unfold splitNl at h
    split at h
    · next hc =>
      rcases List.mem_cons.mp h with h1 | h1
      · simp [h1]
      · exact ih l h1
    · next hc =>
      rcases hms : splitNl cs with _ | ⟨m, ms⟩
      · exact absurd hms (splitNl_ne_nil cs)
      · rw [hms] at h
        rcases List.mem_cons.mp h with h1 | h1
        · subst h1
          intro hmem
          rcases List.mem_cons.mp hmem with h2 | h2
          · exact hc (by rw [← h2]; simp)
          · exact ih m (by rw [hms]; exact List.mem_cons_self m ms) h2
        · exact ih l (by rw [hms]; exact List.mem_cons_of_mem m h1)

theorem splitNl_no_nl (a : List Char) (h : '\n' ∉ a) : splitNl a = [a] := by
  induction a with
  | nil => rfl
  | cons c cs ih =>
    unfold splitNl
    rw [if_neg (by simp; intro hc; exact h (by rw [hc]; simp))]
    rw [ih (fun hm => h (List.mem_cons_of_mem c hm))]

theorem splitNl_cons_nl (cs : List Char) : splitNl ('\n' :: cs) = [] :: splitNl cs := by
  simp [splitNl]

theorem splitNl_cons_other (c : Char) (cs : List Char) (hc : c ≠ '\n') :
    splitNl (c :: cs)
      = match splitNl cs with
        | [] => [[c]]
        | l :: ls => (c :: l) :: ls := by
  rw [splitNl, if_neg (by simpa using hc)]

theorem splitNl_append_nl (x r : List Char) :
    splitNl (x ++ '\n' :: r) = splitNl x ++ splitNl r := by
  induction x with
  | nil => simp [splitNl]
  | cons c cs ih =>
    by_cases hc : c = '\n'
    · subst hc
      show splitNl ('\n' :: (cs ++ '\n' :: r)) = _
      rw [splitNl_cons_nl, splitNl_cons_nl, ih]
      simp
    · show splitNl (c :: (cs ++ '\n' :: r)) = _
      rw [splitNl_cons_other c _ hc, splitNl_cons_other c cs hc, ih]
      rcases hms : splitNl cs with _ | ⟨m, ms⟩
      · exact absurd hms (splitNl_ne_nil cs)
      · simp

theorem joinNl_append (A B : List (List Char)) (hA : A ≠ []) (hB : B ≠ []) :
    joinNl (A ++ B) = joinNl A ++ '\n' :: joinNl B := by
  induction A with
  | nil => exact absurd rfl hA
  | cons a A ih =>
    cases A with
    | nil =>
      cases B with
      | nil => exact absurd rfl hB
      | cons b B => simp [joinNl]
    | cons a2 A2 =>
      have h1 : joinNl ((a2 :: A2) ++ B) = joinNl (a2 :: A2) ++ '\n' :: joinNl B :=
        ih (by simp)
      show joinNl (a :: ((a2 :: A2) ++ B)) = _
      rw [show joinNl (a :: ((a2 :: A2) ++ B)) = a ++ '\n' :: joinNl ((a2 :: A2) ++ B) from rfl]
      rw [h1]
      rw [show joinNl (a :: a2 :: A2) = a ++ '\n' :: joinNl (a2 :: A2) from rfl]
      simp

theorem splitNl_joinNl (ls : List (List Char)) (hne : ls ≠ [])
    (h : ∀ l ∈ ls, '\n' ∉ l) : splitNl (joinNl ls) = ls := by
  induction ls with
  | nil => exact absurd rfl hne
  | cons a ls ih =>
    cases ls with
    | nil =>
      rw [show joinNl [a] = a from rfl]
      exact splitNl_no_nl a (h a (by simp))
    | cons b ls2 =>
      rw [show joinNl (a :: b :: ls2) = a ++ '\n' :: joinNl (b :: ls2) from rfl]
      rw [splitNl_append_nl]
      rw [splitNl_no_nl a (h a (by simp))]
      rw [ih (by simp) (fun l hl => h l (List.mem_cons_of_mem a hl))]
      rfl

theorem bulletG3_mem (l g : List Char) (h : bulletG3 l = some g) :
    ∀ c, c ∈ g → c ∈ l := by
  intro c hc
  unfold bulletG3 at h
  rcases hrest : l.drop (runLen isPySpace l) with _ | ⟨mk, r2⟩
  · rw [hrest] at h
    simp at h
  · rw [hrest] at h
    simp only at h
    have hr2 : ∀ d, d ∈ r2 → d ∈ l := by
      intro d hd
      have h1 : d ∈ l.drop (runLen isPySpace l) := by
        rw [hrest]; exact List.mem_cons_of_mem mk hd
      have h2 : l = l.take (runLen isPySpace l) ++ l.drop (runLen isPySpace l) :=
        (List.take_append_drop _ _).symm
      rw [h2]
      exact List.mem_append_right _ h1
    split at h
    · split at h
      · simp at h
      · split at h
        · injection h with h
          subst h
          exact hr2 c (List.mem_of_mem_drop hc)
        · split at h
          · injection h with h
            subst h
            exact hr2 c (List.mem_of_mem_drop hc)
          · simp at h
    · simp at h

theorem fixLine_no_nl (l : List Char) (h : '\n' ∉ l) : '\n' ∉ fixLine l := by
  unfold fixLine
  cases hb : bulletG3 l with
  | none => exact h
  | some g =>
    intro hmem
    rcases List.mem_append.mp hmem with h1 | h1
    · revert h1
      decide
    · exact h (bulletG3_mem l g hb '\n' h1)

/-- Claim C5: the Bullet Normalizer is a line-by-line transform; every line
matching `^(\s*)([-•])\s+(.+)$` is rewritten as `' -  '` followed by
group 3, discarding indentation and marker, and every non-matching line
(blank lines, marker-only lines such as `"- "`, lines with no marker)
passes through unchanged; in particular every text containing the line
`"  - Buy milk"` yields an output containing the line `" -  Buy milk"`. -/
theorem claimC5 :
    (∀ t, splitNl (fixBulletFormat t) = (splitNl t).map fixLine) ∧
    (∀ l g, bulletG3 l = some g → fixLine l = " -  ".toList ++ g) ∧
    (∀ l, bulletG3 l = none → fixLine l = l) ∧
    fixLine [] = [] ∧ fixLine ("- ".toList) = "- ".toList ∧
    (∀ t, ("  - Buy milk".toList) ∈ splitNl t →
      (" -  Buy milk".toList) ∈ splitNl (fixBulletFormat t)) := by
  have hmain : ∀ t, splitNl (fixBulletFormat t) = (splitNl t).map fixLine := by
    intro t
    unfold fixBulletFormat
    apply splitNl_joinNl
    · intro he
      exact splitNl_ne_nil t (List.map_eq_nil_iff.mp he)
    · intro l hl
      rcases List.mem_map.mp hl with ⟨l0, hl0, rfl⟩
      exact fixLine_no_nl l0 (mem_splitNl_no_nl t l0 hl0)
  refine ⟨hmain, ?_, ?_, by decide, by decide, ?_⟩
  · intro l g h
    unfold fixLine
    rw [h]
  · intro l h
    unfold fixLine
    rw [h]
  · intro t hmem
    rw [hmain t]
    apply List.mem_map.mpr
    exact ⟨("  - Buy milk".toList), hmem, by decide⟩

/-- Witness for C5 at a concrete three-line document. -/
theorem claimC5_witness :
    (" -  Buy milk".toList) ∈ splitNl (fixBulletFormat ("a\n  - Buy milk\nb".toList)) :=
  claimC5.2.2.2.2.2 ("a\n  - Buy milk\nb".toList) (by decide)

/-! ## Claim C4 -/

/-- The pattern of claim C4 as the claim words it: a word-bounded,
case-insensitive match of `<capital letter>[. ]*xL`, with the separator
class containing only dot and space.  This is the claim's description; the
source uses `[.\s]*` (all whitespace) and two additional `M`-patterns. -/
def mClaimC4 : Matcher := fun prev s =>
  match s with
  | [] => none
  | c :: cs =>
    if bdryBefore prev && c.isAlpha then
      let k := runLen (fun d => d == '.' || d == ' ') cs
      match cs.drop k with
      | x :: l :: rest =>
        if lowEq x 'x' && lowEq l 'l' && bdryAfter rest then
          some (k + 3, [c, 'B', 'L'])
        else none
      | _ => none
    else none

/-- Counterexample to Claim C4 as stated: the text `"M\txL"` contains no
match of the claimed pattern `<capital letter>[. ]*xL` (a tab is not a dot
or space), so by the claim no text should be altered; the code's
`_fix_common_errors` nevertheless rewrites it to `"MBL"`, because the
source's separator class is `[.\s]*`. -/
theorem claimC4_counterexample :
    anyFire mClaimC4 none ("M\txL".toList) = false ∧
    fixCommonErrors ("M\txL".toList) = "MBL".toList ∧
    fixCommonErrors ("M\txL".toList) ≠ "M\txL".toList := by
  refine ⟨by decide, by decide, by decide⟩

theorem mFix1_pos (prev : Option Char) (s : List Char) (k : Nat) (r : List Char)
    (h : mFix1 prev s = some (k, r)) : 1 ≤ k := by
  unfold mFix1 at h
  cases s with
  | nil => simp at h
  | cons c cs =>
    simp only at h
    split at h
    · split at h
      · split at h
        · have hp := Option.some.inj h
          have hk := congrArg Prod.fst hp
          simp at hk
          omega
        · simp at h
      · simp at h
    · simp at h

theorem mFix2_pos (prev : Option Char) (s : List Char) (k : Nat) (r : List Char)
    (h : mFix2 prev s = some (k, r)) : 1 ≤ k := by
  unfold mFix2 at h
  cases s with
  | nil => simp at h
  | cons c cs =>
    simp only at h
    split at h
    · split at h
      · split at h
        · split at h
          · split at h
            · have hp := Option.some.inj h
              have hk := congrArg Prod.fst hp
              simp at hk
              omega
            · simp at h
          · simp at h
        · simp at h
      · simp at h
    · simp at h

theorem mFix3_pos (prev : Option Char) (s : List Char) (k : Nat) (r : List Char)
    (h : mFix3 prev s = some (k, r)) : 1 ≤ k := by
  unfold mFix3 at h
  cases s with
  | nil => simp at h
  | cons c cs =>
    simp only at h
    split at h
    · split at h
      · split at h
        · have hp := Option.some.inj h
          have hk := congrArg Prod.fst hp
          simp at hk
          omega
        · simp at h
      · simp at h
    · simp at h

/-- Claim C4, amended: `_fix_common_errors` applies three sequential global
substitutions — case-insensitive and word-bounded `M[.\s]*xL`,
`M[.\s]*x\s*L`, then `([A-Z])[.\s]*xL` — each replacing its leftmost
non-overlapping matches (the first two by the literal `MBL`, uppercasing a
lowercase `m`; the third by the matched letter followed by `BL`) and
copying every character outside the matched spans unchanged; the separator
class admits every whitespace character, not only dot and space.  In
particular `"MxL will attend"` yields text containing `"MBL will attend"`. -/
theorem claimC4 (t : List Char) :
    fixCommonErrors t = runSub mFix3 (runSub mFix2 (runSub mFix1 t)) ∧
    SubRel mFix1 none t (runSub mFix1 t) ∧
    SubRel mFix2 none (runSub mFix1 t) (runSub mFix2 (runSub mFix1 t)) ∧
    SubRel mFix3 none (runSub mFix2 (runSub mFix1 t)) (fixCommonErrors t) ∧
    hasSub ("MBL will attend".toList) (fixCommonErrors ("MxL will attend".toList)) = true := by
  refine ⟨rfl, ?_, ?_, ?_, by decide⟩
  · exact subRel_reSub mFix1 mFix1_pos _ t none (le_refl _)
  · exact subRel_reSub mFix2 mFix2_pos _ _ none (le_refl _)
  · exact subRel_reSub mFix3 mFix3_pos _ _ none (le_refl _)

/-! ## Header-stage counterexamples -/

/-- Counterexample to Claim C2 as stated: on the document
`"Attendees: John, Mary"` (keyword at line start, not already wrapped) the
Header Formatter produces `"**Attendees** John, Mary"` — the replacement
`**\1**` consumes the colon of the match `^(Attendees):` and does not
re-emit it, so the claimed output `"**Attendees**: John, Mary"` never
appears. -/
theorem claimC2_counterexample :
    hasSub ("Attendees: John, Mary".toList) ("Attendees: John, Mary".toList) = true ∧
    containsCI (wrapPat kwAttendees) ("Attendees: John, Mary".toList) = false ∧
    formatSectionHeaders ("Attendees: John, Mary".toList)
      = "**Attendees** John, Mary".toList ∧
    hasSub ("**Attendees**: John, Mary".toList)
      (formatSectionHeaders ("Attendees: John, Mary".toList)) = false := by
  refine ⟨by decide, by decide, by decide, by decide⟩

/-- Counterexample to Claim C3 as stated: in
`"Attendees: x\nAttendees"` the keyword is not pre-wrapped and occurs at
line start both with a colon and standing alone; the colon occurrence is
wrapped by the first pattern, which makes the per-keyword guard fire, so
the standalone occurrence on the final line is left unwrapped (the output
does not end in emphasis markers), contradicting "every occurrence ... is
emphasis-wrapped". -/
theorem claimC3_counterexample :
    containsCI (wrapPat kwAttendees) ("Attendees: x\nAttendees".toList) = false ∧
    formatSectionHeaders ("Attendees: x\nAttendees".toList)
      = "**Attendees** x\nAttendees".toList ∧
    endsWithL (formatSectionHeaders ("Attendees: x\nAttendees".toList)) ("**".toList)
      = false := by
  refine ⟨by decide, by decide, by decide⟩

/-! ## Generic survival machinery for the header substitutions

The two live header matchers (`^H:` and `^H$`) fire only at line starts,
and their spans are case-insensitive copies of a fixed newline-free pattern
`P`.  A designated occurrence `u` inside the document survives such a
substitution when (i) no span can begin at any position of `u`
(`uShielded`), and (ii) no span beginning strictly before `u` can reach
into `u` (`crossOK`). -/

/-- The matcher's spans are case-insensitive copies of the pattern `P`. -/
def SpanCi (m : Matcher) (P : List Char) : Prop :=
  ∀ prev s k r, m prev s = some (k, r) → k = P.length ∧ ciPref P s = true

/-- The matcher never fires directly after a non-newline character
(the `re.MULTILINE` line-start anchor). -/
def NeedsNl (m : Matcher) : Prop :=
  ∀ c s, c ≠ '\n' → m (some c) s = none

/-- Decidable condition: the pattern `P` cannot begin at any position of
`u`: at positions after a non-newline character the anchor fails, and at
the remaining positions `P` mismatches `u`'s tail (hence any extension). -/
def uShielded (P u : List Char) : Bool :=
  (List.range u.length).all fun i =>
    (decide (1 ≤ i) && !((u.getD (i - 1) ' ') == '\n')) ||
    !(ciPref (P.take (u.length - i)) (u.drop i))

/-- Decidable condition: no proper tail of the pattern `P` matches the
start of `u`, so a span beginning before `u` cannot cross into it. -/
def crossOK (P u : List Char) : Bool :=
  (List.range P.length).all fun j =>
    decide (j = 0) || !(ciPref ((P.drop j).take u.length) u)

theorem drop_eq_getD_cons (l : List Char) (i : Nat) (h : i < l.length) :
    l.drop i = l.getD i ' ' :: l.drop (i + 1) := by
  induction l generalizing i with
  | nil => simp at h
  | cons c cs ih =>
    cases i with
    | zero => simp
    | succ i => simpa using ih i (by simpa using h)

theorem ciPref_drop (p a z : List Char) (h : ciPref p (a ++ z) = true)
    (hl : a.length ≤ p.length) : ciPref (p.drop a.length) z = true := by
  induction a generalizing p with
  | nil => simpa using h
  | cons c a ih =>
    cases p with
    | nil => simp at hl
    | cons q p =>
      simp only [List.cons_append, ciPref, Bool.and_eq_true] at h
      simpa using ih p h.2 (by simpa using hl)

/-- Semantic form of `uShielded`: the matcher fires at no position of the
designated occurrence `u`, whatever follows it. -/
def UNoStart (m : Matcher) (u : List Char) : Prop :=
  ∀ i prev b, i < u.length → (i = 0 ∨ (1 ≤ i ∧ prev = some (u.getD (i - 1) ' '))) →
    m prev (u.drop i ++ b) = none

/-- Semantic form of `crossOK`: no proper tail of the pattern matches at
the start of `u`, whatever follows it. -/
def UNoCross (P u : List Char) : Prop :=
  ∀ j b, 1 ≤ j → j < P.length → ciPref (P.drop j) (u ++ b) = false

theorem shield_none (m : Matcher) (P u : List Char)
    (hspan : SpanCi m P) (hnl : NeedsNl m) (hsh : uShielded P u = true) :
    UNoStart m u := by
  intro i prev b hi hprev
  have hall := List.all_eq_true.mp hsh i (List.mem_range.mpr hi)
  rcases Bool.or_eq_true_iff.mp hall with hleft | hright
  · rcases Bool.and_eq_true_iff.mp hleft with ⟨h1, h2⟩
    have hge : 1 ≤ i := by simpa using h1
    have hne : u.getD (i - 1) ' ' ≠ '\n' := by
      intro he
      rw [he] at h2
      simp at h2
    rcases hprev with h0 | ⟨_, hp⟩
    · omega
    · rw [hp]
      exact hnl _ _ hne
  · have hcp : ciPref (P.take (u.length - i)) (u.drop i) = false := by
      cases hc : ciPref (P.take (u.length - i)) (u.drop i) with
      | false => rfl
      | true => rw [hc] at hright; simp at hright
    have hstop : ciPref P (u.drop i ++ b) = false := by
      have hlen : (u.drop i).length = u.length - i := by simp
      apply ciPref_stop
      rw [hlen]
      exact hcp
    cases hm : m prev (u.drop i ++ b) with
    | none => rfl
    | some kr =>
      rcases kr with ⟨k, r⟩
      have := (hspan prev _ k r hm).2
      rw [this] at hstop
      exact Bool.noConfusion hstop

theorem crossOK_sem (P u : List Char) (hcr : crossOK P u = true) : UNoCross P u := by
  intro j b hj1 hjlt
  have hcall := List.all_eq_true.mp hcr j (List.mem_range.mpr hjlt)
  rcases Bool.or_eq_true_iff.mp hcall with hz | hric
  · have : j = 0 := by simpa using hz
    omega
  · have hfalse : ciPref ((P.drop j).take u.length) u = false := by
      cases hc : ciPref ((P.drop j).take u.length) u with
      | false => rfl
      | true => rw [hc] at hric; simp at hric
    exact ciPref_stop (P.drop j) u b hfalse

theorem copy_through (m : Matcher) (u : List Char) (hns : UNoStart m u) :
    ∀ fuel i prev b, i ≤ u.length →
      (i = 0 ∨ (1 ≤ i ∧ prev = some (u.getD (i - 1) ' '))) →
      ∃ y, reSub m fuel prev (u.drop i ++ b) = u.drop i ++ y := by
  intro fuel
  induction fuel with
  | zero => intro i prev b _ _; exact ⟨b, rfl⟩
  | succ fuel ih =>
    intro i prev b hile hprev
    rcases Nat.lt_or_ge i u.length with hlt | hge
    · have hdrop := drop_eq_getD_cons u i hlt
      have hnone := hns i prev b hlt hprev
      obtain ⟨y, hy⟩ := ih (i + 1) (some (u.getD i ' ')) b hlt (Or.inr ⟨by omega, by simp⟩)
      refine ⟨y, ?_⟩
      rw [hdrop]
      rw [hdrop] at hnone
      simp only [List.cons_append] at hnone ⊢
      simp only [reSub, hnone]
      rw [hy]
    · have hieq : i = u.length := by omega
      subst hieq
      rw [List.drop_length]
      exact ⟨reSub m (fuel + 1) prev b, by simp⟩

/-- Survival of a designated occurrence: if no span can begin inside `u`
and no span from before can cross into `u`, every occurrence of `u`
survives the substitution verbatim. -/
theorem sub_survives (m : Matcher) (P u : List Char)
    (hspan : SpanCi m P) (hP : P ≠ [])
    (hns : UNoStart m u) (hcr : UNoCross P u) :
    ∀ fuel a b prev, ∃ x y, reSub m fuel prev (a ++ u ++ b) = x ++ u ++ y := by
  intro fuel
  induction fuel with
  | zero => intro a b prev; exact ⟨a, b, rfl⟩
  | succ fuel ih =>
    intro a b prev
    cases a with
    | nil =>
      obtain ⟨y, hy⟩ :=
        copy_through m u hns (fuel + 1) 0 prev b (Nat.zero_le _) (Or.inl rfl)
      refine ⟨[], y, ?_⟩
      simp only [List.nil_append]
      simpa using hy
    | cons c a =>
      have hlist : c :: a ++ u ++ b = c :: (a ++ u ++ b) := by simp
      cases hm : m prev (c :: (a ++ u ++ b)) with
      | none =>
        obtain ⟨x, y, h⟩ := ih a b (some c)
        refine ⟨c :: x, y, ?_⟩
        rw [hlist]
        simp only [reSub, hm]
        rw [h]
        simp
      | some kr =>
        rcases kr with ⟨k, r⟩
        have hm' : m prev (c :: a ++ u ++ b) = some (k, r) := by rw [hlist]; exact hm
        have hsk := hspan prev _ k r hm'
        have hk1 : 1 ≤ k := by
          rw [hsk.1]
          cases P with
          | nil => exact absurd rfl hP
          | cons p ps => simp
        have hkle : k ≤ (c :: a).length := by
          by_contra hgt
          push_neg at hgt
          have hj1 : 1 ≤ (c :: a).length := by simp
          have hjlt : (c :: a).length < P.length := by omega
          have hcp : ciPref (P.drop (c :: a).length) (u ++ b) = true := by
            apply ciPref_drop
            · have h2 : (c :: a) ++ (u ++ b) = c :: a ++ u ++ b := by simp
              rw [h2]
              exact hsk.2
            · omega
          have hAbs := hcr (c :: a).length b hj1 hjlt
          rw [hcp] at hAbs
          exact Bool.noConfusion hAbs
        obtain ⟨x, y, h⟩ :=
          ih ((c :: a).drop k) b ((List.take k (c :: (a ++ u ++ b))).getLast?)
        refine ⟨r ++ x, y, ?_⟩
        rw [hlist]
        simp only [reSub, hm]
        have hdrop : List.drop k (c :: (a ++ u ++ b)) = (c :: a).drop k ++ u ++ b := by
          have h2 : c :: (a ++ u ++ b) = (c :: a) ++ (u ++ b) := by simp
          rw [h2, dropAppend _ _ _ hkle, ← List.append_assoc]
        rw [hdrop, h]
        simp

/-! ## Facts about the header matchers -/

theorem mHdr1_spanCi (K : List Char) : SpanCi (mHdr1 K) (K ++ [':']) := by
  intro prev s k r h
  unfold mHdr1 at h
  split at h
  · next hc =>
    have hp := Option.some.inj h
    have hk := congrArg Prod.fst hp
    simp at hk
    rcases Bool.and_eq_true_iff.mp hc with ⟨_, h2⟩
    refine ⟨?_, h2⟩
    simp [← hk]
  · exact absurd h (by simp)

theorem mHdr2_spanCi (K : List Char) : SpanCi (mHdr2 K) K := by
  intro prev s k r h
  unfold mHdr2 at h
  split at h
  · next hc =>
    have hp := Option.some.inj h
    have hk := congrArg Prod.fst hp
    simp at hk
    rcases Bool.and_eq_true_iff.mp hc with ⟨hc1, _⟩
    rcases Bool.and_eq_true_iff.mp hc1 with ⟨_, h2⟩
    exact ⟨hk.symm, h2⟩
  · exact absurd h (by simp)

theorem mHdr1_needsNl (K : List Char) : NeedsNl (mHdr1 K) := by
  intro c s hc
  unfold mHdr1
  rw [if_neg]
  intro hco
  rcases Bool.and_eq_true_iff.mp hco with ⟨h1, _⟩
  unfold atLineStart at h1
  exact hc (by simpa using h1)

theorem mHdr2_needsNl (K : List Char) : NeedsNl (mHdr2 K) := by
  intro c s hc
  unfold mHdr2
  rw [if_neg]
  intro hco
  rcases Bool.and_eq_true_iff.mp hco with ⟨h1, _⟩
  rcases Bool.and_eq_true_iff.mp h1 with ⟨h2, _⟩
  unfold atLineStart at h2
  exact hc (by simpa using h2)

/-- The replacement emitted by a matcher always has the form
`**` ++ (a case-insensitive copy of the keyword) ++ `**`. -/
def WrapRepl (m : Matcher) (K : List Char) : Prop :=
  ∀ prev s k r, m prev s = some (k, r) →
    ∃ w, r = "**".toList ++ w ++ "**".toList ∧ lowerL w = lowerL K

theorem mHdr1_wrapRepl (K : List Char) : WrapRepl (mHdr1 K) K := by
  intro prev s k r h
  unfold mHdr1 at h
  split at h
  · next hc =>
    have hp := Option.some.inj h
    have hr := congrArg Prod.snd hp
    simp only at hr
    refine ⟨s.take K.length, hr.symm, ?_⟩
    rcases Bool.and_eq_true_iff.mp hc with ⟨_, h2⟩
    rw [ciPref_lower_take] at h2
    have h3 := h2.2
    have e1 : s.take K.length = (s.take ((K ++ [':']).length)).take K.length := by
      rw [List.take_take, Nat.min_eq_left (by simp)]
    rw [e1]
    have e2 : lowerL ((s.take ((K ++ [':']).length)).take K.length)
        = (lowerL (s.take ((K ++ [':']).length))).take K.length := by
      simp [lowerL, List.map_take]
    rw [e2, h3, lowerL_append]
    rw [takeAppend _ _ _ (by simp [lowerL])]
    have e3 : K.length = (lowerL K).length := by simp [lowerL]
    rw [e3, List.take_length]
  · exact absurd h (by simp)

theorem mHdr2_wrapRepl (K : List Char) : WrapRepl (mHdr2 K) K := by
  intro prev s k r h
  unfold mHdr2 at h
  split at h
  · next hc =>
    have hp := Option.some.inj h
    have hr := congrArg Prod.snd hp
    simp only at hr
    refine ⟨s.take K.length, hr.symm, ?_⟩
    rcases Bool.and_eq_true_iff.mp hc with ⟨hc1, _⟩
    rcases Bool.and_eq_true_iff.mp hc1 with ⟨_, h2⟩
    rw [ciPref_lower_take] at h2
    exact h2.2
  · exact absurd h (by simp)

theorem containsCI_head (p s : List Char) (h : ciPref p s = true) :
    containsCI p s = true := by
  cases s with
  | nil => exact h
  | cons c cs => rw [containsCI, h]; rfl

theorem fire_wrap (m : Matcher) (K : List Char) (hw : WrapRepl m K) :
    ∀ fuel prev s, anyFire m prev s = true → s.length ≤ fuel →
      containsCI (wrapPat K) (reSub m fuel prev s) = true := by
  intro fuel
  induction fuel with
  | zero =>
    intro prev s hf hl
    have : s = [] := List.eq_nil_of_length_eq_zero (Nat.le_zero.mp hl)
    subst this
    simp [anyFire] at hf
  | succ fuel ih =>
    intro prev s hf hl
    cases s with
    | nil => simp [anyFire] at hf
    | cons c cs =>
      cases hm : m prev (c :: cs) with
      | some kr =>
        rcases kr with ⟨k, r⟩
        obtain ⟨w, hrw, hlow⟩ := hw prev _ k r hm
        simp only [reSub, hm]
        apply containsCI_head
        rw [hrw]
        apply ciPref_of_lower
        simp only [wrapPat, lowerL_append, hlow]
      | none =>
        rw [anyFire, hm] at hf
        simp only [Option.isSome_none, Bool.false_or] at hf
        simp only [reSub, hm]
        rw [containsCI]
        rw [ih (some c) cs hf (by simpa using Nat.le_of_succ_le_succ hl)]
        simp

/-! ## Assembly over one keyword step -/

theorem hdrPass_guard (K : List Char) (mf : List Char → Matcher) (t : List Char)
    (h : containsCI (wrapPat K) t = true) : hdrPass K mf t = t := by
  unfold hdrPass
  rw [if_pos h]

theorem hdrPass_run (K : List Char) (mf : List Char → Matcher) (t : List Char)
    (h : containsCI (wrapPat K) t = false) : hdrPass K mf t = runSub (mf K) t := by
  unfold hdrPass
  rw [if_neg (by simp [h])]

theorem hdrPass_noFire (K : List Char) (mf : List Char → Matcher) (t : List Char)
    (h : anyFire (mf K) none t = false) : hdrPass K mf t = t := by
  unfold hdrPass
  split
  · rfl
  · exact noFire_id (mf K) t none t.length h

theorem anyFire_hdr3_false (K : List Char) :
    ∀ s prev, anyFire (mHdr1 K) prev s = false → anyFire (mHdr3 K) prev s = false := by
  intro s
  induction s with
  | nil => intro prev _; rfl
  | cons c cs ih =>
    intro prev h
    rw [anyFire] at h
    rcases Bool.or_eq_false_iff.mp h with ⟨h1, h2⟩
    rw [anyFire]
    apply Bool.or_eq_false_iff.mpr
    refine ⟨?_, ih (some c) h2⟩
    by_cases hcd : (c == '\n' && ciPref (K ++ [':']) cs) = true
    · exfalso
      rcases Bool.and_eq_true_iff.mp hcd with ⟨hc1, hc2⟩
      have hcn : c = '\n' := by simpa using hc1
      cases cs with
      | nil =>
        rcases K with _ | ⟨k0, K'⟩ <;> simp [ciPref] at hc2
      | cons d cs2 =>
        rw [anyFire] at h2
        have hfire : (mHdr1 K (some c) (d :: cs2)).isSome = true := by
          unfold mHdr1
          rw [if_pos]
          · rfl
          · subst hcn
            simp only [atLineStart, Bool.and_eq_true]
            exact ⟨by simp, hc2⟩
        rw [hfire] at h2
        simp at h2
    · show (if (c == '\n' && ciPref (K ++ [':']) cs) = true then
          some (K.length + 2, "**".toList ++ List.take K.length cs ++ "**".toList)
        else none).isSome = false
      rw [if_neg hcd]
      rfl

theorem anyFire_hdr4_false (K : List Char) (hK : K ≠ []) :
    ∀ s prev, anyFire (mHdr2 K) prev s = false → anyFire (mHdr4 K) prev s = false := by
  intro s
  induction s with
  | nil => intro prev _; rfl
  | cons c cs ih =>
    intro prev h
    rw [anyFire] at h
    rcases Bool.or_eq_false_iff.mp h with ⟨h1, h2⟩
    rw [anyFire]
    apply Bool.or_eq_false_iff.mpr
    refine ⟨?_, ih (some c) h2⟩
    by_cases hcd : (c == '\n' && ciPref K cs &&
        (match cs.drop K.length with
         | d :: _ => d == '\n'
         | [] => false)) = true
    · exfalso
      rcases Bool.and_eq_true_iff.mp hcd with ⟨hc1, hc3⟩
      rcases Bool.and_eq_true_iff.mp hc1 with ⟨hc0, hc2⟩
      have hcn : c = '\n' := by simpa using hc0
      cases cs with
      | nil =>
        rcases K with _ | ⟨k0, K'⟩
        · exact hK rfl
        · simp [ciPref] at hc2
      | cons d cs2 =>
        rw [anyFire] at h2
        have hfire : (mHdr2 K (some c) (d :: cs2)).isSome = true := by
          unfold mHdr2
          rw [if_pos]
          · rfl
          · subst hcn
            simp only [atLineStart, Bool.and_eq_true]
            refine ⟨⟨by simp, hc2⟩, ?_⟩
            have hdisc : ∀ z : List Char,
                (match z with
                 | d :: _ => d == '\n'
                 | [] => false) = true →
                (match z with
                 | [] => true
                 | c :: _ => c == '\n') = true := by
              intro z hz
              cases z with
              | nil => simp at hz
              | cons e rest => exact hz
            exact hdisc _ hc3
        rw [hfire] at h2
        simp at h2
    · show (if (c == '\n' && ciPref K cs &&
            (match List.drop K.length cs with
             | d :: _ => d == '\n'
             | [] => false)) = true then
          some (K.length + 2, "**".toList ++ List.take K.length cs ++ "**".toList)
        else none).isSome = false
      rw [if_neg hcd]
      rfl

/-- Survival of a designated occurrence `u` through the whole processing of
one keyword `K2`: each of the four guarded substitutions either is skipped
by the guard, fires nowhere, or rewrites the text while `u` survives (the
patterns `\nH:` and `\nH\n` never act: any match of theirs is also a match
of the corresponding `^`-anchored pattern, whose substitution either
already ran — turning the guard on — or fired nowhere). -/
theorem hdrStep_survives (K2 u : List Char) (hK2 : K2 ≠ [])
    (hns1 : UNoStart (mHdr1 K2) u) (hcr1 : UNoCross (K2 ++ [':']) u)
    (hns2 : UNoStart (mHdr2 K2) u) (hcr2 : UNoCross K2 u)
    (a b : List Char) :
    ∃ x y, hdrStep K2 (a ++ u ++ b) = x ++ u ++ y := by
  unfold hdrStep
  by_cases hg : containsCI (wrapPat K2) (a ++ u ++ b) = true
  · rw [hdrPass_guard _ _ _ hg, hdrPass_guard _ _ _ hg, hdrPass_guard _ _ _ hg,
      hdrPass_guard _ _ _ hg]
    exact ⟨a, b, rfl⟩
  · have hgf : containsCI (wrapPat K2) (a ++ u ++ b) = false := by
      cases hgg : containsCI (wrapPat K2) (a ++ u ++ b) with
      | true => exact absurd hgg hg
      | false => rfl
    rw [hdrPass_run _ _ _ hgf]
    cases hf1 : anyFire (mHdr1 K2) none (a ++ u ++ b) with
    | true =>
      have hwrap : containsCI (wrapPat K2) (runSub (mHdr1 K2) (a ++ u ++ b)) = true :=
        fire_wrap (mHdr1 K2) K2 (mHdr1_wrapRepl K2) (a ++ u ++ b).length none _ hf1
          (le_refl _)
      obtain ⟨x, y, hxy⟩ := sub_survives (mHdr1 K2) (K2 ++ [':']) u (mHdr1_spanCi K2)
        (by simp) hns1 hcr1 (a ++ u ++ b).length a b none
      have hxy2 : runSub (mHdr1 K2) (a ++ u ++ b) = x ++ u ++ y := hxy
      rw [hdrPass_guard _ mHdr2 _ hwrap, hdrPass_guard _ mHdr3 _ hwrap,
        hdrPass_guard _ mHdr4 _ hwrap]
      exact ⟨x, y, hxy2⟩
    | false =>
      have hr1 : runSub (mHdr1 K2) (a ++ u ++ b) = a ++ u ++ b :=
        noFire_id _ _ none _ hf1
      rw [hr1, hdrPass_run _ _ _ hgf]
      cases hf2 : anyFire (mHdr2 K2) none (a ++ u ++ b) with
      | true =>
        have hwrap : containsCI (wrapPat K2) (runSub (mHdr2 K2) (a ++ u ++ b)) = true :=
          fire_wrap (mHdr2 K2) K2 (mHdr2_wrapRepl K2) (a ++ u ++ b).length none _ hf2
            (le_refl _)
        obtain ⟨x, y, hxy⟩ := sub_survives (mHdr2 K2) K2 u (mHdr2_spanCi K2)
          hK2 hns2 hcr2 (a ++ u ++ b).length a b none
        have hxy2 : runSub (mHdr2 K2) (a ++ u ++ b) = x ++ u ++ y := hxy
        rw [hdrPass_guard _ mHdr3 _ hwrap, hdrPass_guard _ mHdr4 _ hwrap]
        exact ⟨x, y, hxy2⟩
      | false =>
        have hr2 : runSub (mHdr2 K2) (a ++ u ++ b) = a ++ u ++ b :=
          noFire_id _ _ none _ hf2
        rw [hr2, hdrPass_noFire _ _ _ (anyFire_hdr3_false K2 _ none hf1),
          hdrPass_noFire _ _ _ (anyFire_hdr4_false K2 hK2 _ none hf2)]
        exact ⟨a, b, rfl⟩

/-! ## Wrapping a designated line-start occurrence -/

theorem reSub_head_some (m : Matcher) (fuel : Nat) (prev : Option Char) (c : Char)
    (cs : List Char) (k : Nat) (r : List Char) (hm : m prev (c :: cs) = some (k, r)) :
    reSub m (fuel + 1) prev (c :: cs)
      = r ++ reSub m fuel ((List.take k (c :: cs)).getLast?) (List.drop k (c :: cs)) := by
  simp [reSub, hm]

theorem reSub_head_none (m : Matcher) (fuel : Nat) (prev : Option Char) (c : Char)
    (cs : List Char) (hm : m prev (c :: cs) = none) :
    reSub m (fuel + 1) prev (c :: cs) = c :: reSub m fuel (some c) cs := by
  simp [reSub, hm]

theorem endsWith_nl_cons_elim (c : Char) (a : List Char)
    (h : endsWithL (c :: a) ['\n'] = true) :
    (a = [] ∧ c = '\n') ∨ (a ≠ [] ∧ endsWithL a ['\n'] = true) := by
  rcases (endsWith_iff _ _).mp h with ⟨x, hx⟩
  cases x with
  | nil =>
    injection hx with h1 h2
    exact Or.inl ⟨h2, h1⟩
  | cons e x2 =>
    injection hx with h1 h2
    refine Or.inr ⟨?_, (endsWith_iff _ _).mpr ⟨x2, h2⟩⟩
    rw [h2]
    simp

theorem mem_lower_of_endsWith_nl (a : List Char) (h : endsWithL a ['\n'] = true) :
    '\n' ∈ lowerL a := by
  rcases (endsWith_iff _ _).mp h with ⟨x, rfl⟩
  rw [lowerL_append]
  apply List.mem_append_right
  decide

/-- If the matcher fires at every line-start occurrence of `u` (with the
following context satisfying `bOK`), always emitting the replacement `R`,
and spans cannot cross into `u` from the left, then scanning a text that
carries such an occurrence produces an output containing `R`. -/
theorem wraps_at (m : Matcher) (P u R : List Char) (bOK : List Char → Prop)
    (hspan : SpanCi m P) (hPnl : '\n' ∉ lowerL P) (hP : P ≠ []) (hu : u ≠ [])
    (hcr : UNoCross P u)
    (hfire : ∀ prev b, bOK b → atLineStart prev = true →
      ∃ k, m prev (u ++ b) = some (k, R)) :
    ∀ fuel a b prev, (a ++ u ++ b).length ≤ fuel → bOK b →
      ((a = [] ∧ atLineStart prev = true) ∨ (a ≠ [] ∧ endsWithL a ['\n'] = true)) →
      ∃ x y, reSub m fuel prev (a ++ u ++ b) = x ++ R ++ y := by
  intro fuel
  induction fuel with
  | zero =>
    intro a b prev hlen _ _
    exfalso
    have hu1 : 1 ≤ u.length := by
      cases u with
      | nil => exact absurd rfl hu
      | cons _ _ => simp
    simp only [List.length_append, Nat.le_zero] at hlen
    omega
  | succ fuel ih =>
    intro a b prev hlen hb hinv
    cases a with
    | nil =>
      rcases hinv with ⟨_, hls⟩ | ⟨hne, _⟩
      · obtain ⟨k, hm⟩ := hfire prev b hb hls
        cases u with
        | nil => exact absurd rfl hu
        | cons c u2 =>
          have hm2 : m prev (c :: (u2 ++ b)) = some (k, R) := by
            have he : (c :: u2) ++ b = c :: (u2 ++ b) := by simp
            rw [← he]
            exact hm
          refine ⟨[], reSub m fuel ((List.take k (c :: (u2 ++ b))).getLast?)
            (List.drop k (c :: (u2 ++ b))), ?_⟩
          have he2 : ([] : List Char) ++ (c :: u2) ++ b = c :: (u2 ++ b) := by simp
          rw [he2, reSub_head_some m fuel prev c (u2 ++ b) k R hm2]
          simp
      · exact absurd rfl hne
    | cons c a2 =>
      rcases hinv with ⟨hnil, _⟩ | ⟨_, hends⟩
      · exact absurd hnil (by simp)
      · have hlist : c :: a2 ++ u ++ b = c :: (a2 ++ u ++ b) := by simp
        cases hm : m prev (c :: (a2 ++ u ++ b)) with
        | none =>
          have hinv2 : (a2 = [] ∧ atLineStart (some c) = true) ∨
              (a2 ≠ [] ∧ endsWithL a2 ['\n'] = true) := by
            rcases endsWith_nl_cons_elim c a2 hends with ⟨h1, h2⟩ | ⟨h1, h2⟩
            · refine Or.inl ⟨h1, ?_⟩
              rw [h2]
              rfl
            · exact Or.inr ⟨h1, h2⟩
          have hlen2 : (a2 ++ u ++ b).length ≤ fuel := by
            simp only [List.length_append, List.length_cons] at hlen ⊢
            omega
          obtain ⟨x, y, h⟩ := ih a2 b (some c) hlen2 hb hinv2
          refine ⟨c :: x, y, ?_⟩
          rw [hlist, reSub_head_none m fuel prev c _ hm, h]
          simp
        | some kr =>
          rcases kr with ⟨k, r⟩
          have hm1 : m prev (c :: a2 ++ u ++ b) = some (k, r) := by
            rw [hlist]
            exact hm
          have hsk := hspan prev _ k r hm1
          have hk1 : 1 ≤ k := by
            rw [hsk.1]
            cases P with
            | nil => exact absurd rfl hP
            | cons p ps => simp
          have hklt : k < (c :: a2).length := by
            rcases Nat.lt_or_ge k (c :: a2).length with h1 | h2
            · exact h1
            · exfalso
              rcases Nat.eq_or_lt_of_le h2 with heq | hgt
              · have htake : (c :: a2 ++ u ++ b).take k = c :: a2 := by
                  have e1 : c :: a2 ++ u ++ b = (c :: a2) ++ (u ++ b) := by simp
                  rw [e1, ← heq, takeAppend _ _ _ (le_refl _), List.take_length]
                have hlow := (ciPref_lower_take P _).mp hsk.2
                have hlow2 : lowerL (c :: a2) = lowerL P := by
                  rw [← htake, hsk.1]
                  exact hlow.2
                have hmem : '\n' ∈ lowerL (c :: a2) := mem_lower_of_endsWith_nl _ hends
                rw [hlow2] at hmem
                exact hPnl hmem
              · have hj1 : 1 ≤ (c :: a2).length := by simp
                have hjlt : (c :: a2).length < P.length := by omega
                have hcp : ciPref (P.drop (c :: a2).length) (u ++ b) = true := by
                  apply ciPref_drop
                  · have h3 : (c :: a2) ++ (u ++ b) = c :: a2 ++ u ++ b := by simp
                    rw [h3]
                    exact hsk.2
                  · omega
                have hAbs := hcr (c :: a2).length b hj1 hjlt
                rw [hcp] at hAbs
                exact Bool.noConfusion hAbs
          have hendsk : endsWithL ((c :: a2).drop k) ['\n'] = true ∧
              (c :: a2).drop k ≠ [] := by
            rcases (endsWith_iff _ _).mp hends with ⟨x0, hx0⟩
            have hkx : k ≤ x0.length := by
              have hl0 : (c :: a2).length = x0.length + 1 := by
                rw [hx0]
                simp
              omega
            constructor
            · rw [hx0, dropAppend _ _ _ hkx, endsWith_iff]
              exact ⟨x0.drop k, rfl⟩
            · rw [hx0, dropAppend _ _ _ hkx]
              simp
          have hlen2 : ((c :: a2).drop k ++ u ++ b).length ≤ fuel := by
            simp only [List.length_append, List.length_cons, List.length_drop] at hlen ⊢
            omega
          obtain ⟨x, y, h⟩ := ih ((c :: a2).drop k) b
            ((List.take k (c :: (a2 ++ u ++ b))).getLast?) hlen2 hb
            (Or.inr ⟨hendsk.2, hendsk.1⟩)
          refine ⟨r ++ x, y, ?_⟩
          rw [hlist, reSub_head_some m fuel prev c _ k r hm]
          have hdrop : List.drop k (c :: (a2 ++ u ++ b)) = (c :: a2).drop k ++ u ++ b := by
            have h2 : c :: (a2 ++ u ++ b) = (c :: a2) ++ (u ++ b) := by simp
            rw [h2, dropAppend _ _ _ (le_of_lt hklt), ← List.append_assoc]
          rw [hdrop, h]
          simp

theorem endsWith_cons (c : Char) (a suf : List Char) (h : endsWithL a suf = true) :
    endsWithL (c :: a) suf = true := by
  rcases (endsWith_iff _ _).mp h with ⟨x, rfl⟩
  exact (endsWith_iff _ _).mpr ⟨c :: x, rfl⟩

theorem endsWith_ne_nil (a : List Char) (h : endsWithL a ['\n'] = true) : a ≠ [] := by
  rcases (endsWith_iff _ _).mp h with ⟨x, rfl⟩
  simp

theorem hdr1_fires (K : List Char) (prev : Option Char) (b : List Char)
    (hls : atLineStart prev = true) :
    mHdr1 K prev ((K ++ [':']) ++ b)
      = some (K.length + 1, "**".toList ++ K ++ "**".toList) := by
  unfold mHdr1
  rw [if_pos]
  · have htk : ((K ++ [':']) ++ b).take K.length = K := by
      rw [List.append_assoc, takeAppend _ _ _ (le_refl _), List.take_length]
    rw [htk]
  · apply Bool.and_eq_true_iff.mpr
    exact ⟨hls, ciPref_self _ _⟩

theorem hdr2_fires (K : List Char) (prev : Option Char) (b : List Char)
    (hb : b = [] ∨ ∃ b2, b = '\n' :: b2) (hls : atLineStart prev = true) :
    mHdr2 K prev (K ++ b) = some (K.length, "**".toList ++ K ++ "**".toList) := by
  unfold mHdr2
  rw [if_pos]
  · have htk : (K ++ b).take K.length = K := by
      rw [takeAppend _ _ _ (le_refl _), List.take_length]
    rw [htk]
  · apply Bool.and_eq_true_iff.mpr
    have hdb : (K ++ b).drop K.length = b := by
      rw [dropAppend _ _ _ (le_refl _), List.drop_length]
      rfl
    refine ⟨Bool.and_eq_true_iff.mpr ⟨hls, ciPref_self K b⟩, ?_⟩
    rw [hdb]
    rcases hb with rfl | ⟨b2, rfl⟩
    · rfl
    · rfl

theorem anyFire_at (m : Matcher) (u : List Char) (bOK : List Char → Prop)
    (hfire : ∀ prev b, bOK b → atLineStart prev = true → (m prev (u ++ b)).isSome = true)
    (hu : u ≠ []) :
    ∀ a b prev, bOK b →
      ((a = [] ∧ atLineStart prev = true) ∨ (a ≠ [] ∧ endsWithL a ['\n'] = true)) →
      anyFire m prev (a ++ u ++ b) = true := by
  intro a
  induction a with
  | nil =>
    intro b prev hb hinv
    rcases hinv with ⟨_, hls⟩ | ⟨hne, _⟩
    · cases u with
      | nil => exact absurd rfl hu
      | cons c u2 =>
        have hf := hfire prev b hb hls
        have he : ([] : List Char) ++ (c :: u2) ++ b = c :: (u2 ++ b) := by simp
        rw [he, anyFire]
        have he2 : (c :: u2) ++ b = c :: (u2 ++ b) := by simp
        rw [he2] at hf
        rw [hf]
        rfl
    · exact absurd rfl hne
  | cons c a2 ih =>
    intro b prev hb hinv
    rcases hinv with ⟨hnil, _⟩ | ⟨_, hends⟩
    · exact absurd hnil (by simp)
    · have hinv2 : (a2 = [] ∧ atLineStart (some c) = true) ∨
          (a2 ≠ [] ∧ endsWithL a2 ['\n'] = true) := by
        rcases endsWith_nl_cons_elim c a2 hends with ⟨h1, h2⟩ | ⟨h1, h2⟩
        · refine Or.inl ⟨h1, ?_⟩
          rw [h2]
          rfl
        · exact Or.inr ⟨h1, h2⟩
      have he : (c :: a2) ++ u ++ b = c :: (a2 ++ u ++ b) := by simp
      rw [he, anyFire, ih b (some c) hb hinv2]
      simp

theorem anyFire_hdr1_decomp (K : List Char) :
    ∀ s prev, anyFire (mHdr1 K) prev s = true →
      ∃ a w b, s = a ++ w ++ b ∧ lowerL w = lowerL (K ++ [':']) ∧
        ((a = [] ∧ atLineStart prev = true) ∨ endsWithL a ['\n'] = true) := by
  intro s
  induction s with
  | nil => intro prev h; simp [anyFire] at h
  | cons c cs ih =>
    intro prev h
    rw [anyFire, Bool.or_eq_true] at h
    rcases h with h | h
    · rw [Option.isSome_iff_exists] at h
      rcases h with ⟨⟨k, r⟩, hm⟩
      unfold mHdr1 at hm
      split at hm
      · next hcond =>
        rcases Bool.and_eq_true_iff.mp hcond with ⟨hls, hci⟩
        rw [ciPref_iff] at hci
        rcases hci with ⟨w, y, hsy, hlw⟩
        exact ⟨[], w, y, by simpa using hsy, hlw, Or.inl ⟨rfl, hls⟩⟩
      · exact absurd hm (by simp)
    · rcases ih (some c) h with ⟨a, w, b, h1, h2, h3⟩
      refine ⟨c :: a, w, b, by simp [h1], h2, ?_⟩
      right
      rcases h3 with ⟨rfl, hls⟩ | hend
      · have hcn : c = '\n' := by
          unfold atLineStart at hls
          simpa using hls
        subst hcn
        exact (endsWith_iff _ _).mpr ⟨[], rfl⟩
      · exact endsWith_cons c a _ hend

theorem hdr1_noFire_of_noColon (K : List Char) (t : List Char)
    (h : ∀ a w b, t = a ++ w ++ b → lowerL w = lowerL (K ++ [':']) →
      (a = [] ∨ endsWithL a ['\n'] = true) → False) :
    anyFire (mHdr1 K) none t = false := by
  cases hf : anyFire (mHdr1 K) none t with
  | false => rfl
  | true =>
    exfalso
    rcases anyFire_hdr1_decomp K t none hf with ⟨a, w, b, h1, h2, h3⟩
    apply h a w b h1 h2
    rcases h3 with ⟨rfl, _⟩ | hend
    · exact Or.inl rfl
    · exact Or.inr hend

/-! ## Per-keyword processing: the four fine-grained behaviours -/

theorem hdrStep_guard_on (K t : List Char) (h : containsCI (wrapPat K) t = true) :
    hdrStep K t = t := by
  unfold hdrStep
  rw [hdrPass_guard _ _ _ h, hdrPass_guard _ _ _ h, hdrPass_guard _ _ _ h,
    hdrPass_guard _ _ _ h]

theorem hdrStep_wraps_colon (K : List Char)
    (hKnl : '\n' ∉ lowerL (K ++ [':'])) (hcr : UNoCross (K ++ [':']) (K ++ [':']))
    (t a b : List Char) (hg : containsCI (wrapPat K) t = false)
    (ht : t = a ++ (K ++ [':']) ++ b) (hls : a = [] ∨ endsWithL a ['\n'] = true) :
    hasSub (wrapPat K) (hdrStep K t) = true := by
  subst ht
  unfold hdrStep
  rw [hdrPass_run _ _ _ hg]
  obtain ⟨x, y, hxy⟩ := wraps_at (mHdr1 K) (K ++ [':']) (K ++ [':']) (wrapPat K)
    (fun _ => True) (mHdr1_spanCi K) hKnl (by simp) (by simp) hcr
    (fun prev b2 _ hlsp => ⟨K.length + 1, hdr1_fires K prev b2 hlsp⟩)
    (a ++ (K ++ [':']) ++ b).length a b none (le_refl _) trivial
    (by
      rcases hls with rfl | hend
      · exact Or.inl ⟨rfl, rfl⟩
      · exact Or.inr ⟨endsWith_ne_nil a hend, hend⟩)
  have hxy2 : runSub (mHdr1 K) (a ++ (K ++ [':']) ++ b) = x ++ wrapPat K ++ y := hxy
  rw [hxy2]
  have hsub : hasSub (wrapPat K) (x ++ wrapPat K ++ y) = true :=
    (hasSub_iff _ _).mpr ⟨x, y, rfl⟩
  have hgw : containsCI (wrapPat K) (x ++ wrapPat K ++ y) = true :=
    containsCI_of_hasSub _ _ hsub
  rw [hdrPass_guard _ _ _ hgw, hdrPass_guard _ _ _ hgw, hdrPass_guard _ _ _ hgw]
  exact hsub

theorem hdrStep_wraps_alone (K : List Char) (hK : K ≠ [])
    (hKnl : '\n' ∉ lowerL K) (hcr : UNoCross K K)
    (t a b : List Char) (hg : containsCI (wrapPat K) t = false)
    (hnof : anyFire (mHdr1 K) none t = false)
    (ht : t = a ++ K ++ b) (hls : a = [] ∨ endsWithL a ['\n'] = true)
    (hb : b = [] ∨ ∃ b2, b = '\n' :: b2) :
    hasSub (wrapPat K) (hdrStep K t) = true := by
  unfold hdrStep
  rw [hdrPass_noFire _ _ _ hnof, hdrPass_run _ _ _ hg]
  subst ht
  obtain ⟨x, y, hxy⟩ := wraps_at (mHdr2 K) K K (wrapPat K)
    (fun b2 => b2 = [] ∨ ∃ b3, b2 = '\n' :: b3) (mHdr2_spanCi K) hKnl hK hK hcr
    (fun prev b2 hb2 hlsp => ⟨K.length, hdr2_fires K prev b2 hb2 hlsp⟩)
    (a ++ K ++ b).length a b none (le_refl _) hb
    (by
      rcases hls with rfl | hend
      · exact Or.inl ⟨rfl, rfl⟩
      · exact Or.inr ⟨endsWith_ne_nil a hend, hend⟩)
  have hxy2 : runSub (mHdr2 K) (a ++ K ++ b) = x ++ wrapPat K ++ y := hxy
  rw [hxy2]
  have hsub : hasSub (wrapPat K) (x ++ wrapPat K ++ y) = true :=
    (hasSub_iff _ _).mpr ⟨x, y, rfl⟩
  have hgw : containsCI (wrapPat K) (x ++ wrapPat K ++ y) = true :=
    containsCI_of_hasSub _ _ hsub
  rw [hdrPass_guard _ _ _ hgw, hdrPass_guard _ _ _ hgw]
  exact hsub

theorem hdrStep_mixed (K : List Char)
    (hns : UNoStart (mHdr1 K) ('\n' :: (K ++ ['\n'])))
    (hcr : UNoCross (K ++ [':']) ('\n' :: (K ++ ['\n'])))
    (t a b a2 b2 : List Char) (hg : containsCI (wrapPat K) t = false)
    (ht : t = a ++ (K ++ [':']) ++ b) (hls : a = [] ∨ endsWithL a ['\n'] = true)
    (ht2 : t = a2 ++ ('\n' :: (K ++ ['\n'])) ++ b2) :
    hasSub ('\n' :: (K ++ ['\n'])) (hdrStep K t) = true ∧
    containsCI (wrapPat K) (hdrStep K t) = true := by
  unfold hdrStep
  rw [hdrPass_run _ _ _ hg]
  have hfireT : anyFire (mHdr1 K) none t = true := by
    rw [ht]
    apply anyFire_at (mHdr1 K) (K ++ [':']) (fun _ => True) ?_ (by simp) a b none trivial
    · rcases hls with rfl | hend
      · exact Or.inl ⟨rfl, rfl⟩
      · exact Or.inr ⟨endsWith_ne_nil a hend, hend⟩
    · intro prev b3 _ hlsp
      rw [hdr1_fires K prev b3 hlsp]
      rfl
  have hwrap : containsCI (wrapPat K) (runSub (mHdr1 K) t) = true :=
    fire_wrap (mHdr1 K) K (mHdr1_wrapRepl K) t.length none t hfireT (le_refl _)
  obtain ⟨x, y, hxy⟩ := sub_survives (mHdr1 K) (K ++ [':']) ('\n' :: (K ++ ['\n']))
    (mHdr1_spanCi K) (by simp) hns hcr (a2 ++ ('\n' :: (K ++ ['\n'])) ++ b2).length
    a2 b2 none
  have hxy2 : runSub (mHdr1 K) t = x ++ ('\n' :: (K ++ ['\n'])) ++ y := by
    rw [ht2]
    exact hxy
  rw [hdrPass_guard _ _ _ hwrap, hdrPass_guard _ _ _ hwrap, hdrPass_guard _ _ _ hwrap]
  rw [hxy2]
  rw [hxy2] at hwrap
  exact ⟨(hasSub_iff _ _).mpr ⟨x, y, rfl⟩, hwrap⟩

/-- Variant of `wraps_at` that exposes where the scan resumes: when the
span at the designated occurrence is exactly `u` itself, the text after the
occurrence is handed unchanged to the continuation of the scan. -/
theorem wraps_at_tail (m : Matcher) (P u R : List Char) (bOK : List Char → Prop)
    (hspan : SpanCi m P) (hPnl : '\n' ∉ lowerL P) (hP : P ≠ []) (hu : u ≠ [])
    (hPu : P.length = u.length)
    (hcr : UNoCross P u)
    (hfire : ∀ prev b, bOK b → atLineStart prev = true →
      ∃ k, m prev (u ++ b) = some (k, R)) :
    ∀ fuel a b prev, (a ++ u ++ b).length ≤ fuel → bOK b →
      ((a = [] ∧ atLineStart prev = true) ∨ (a ≠ [] ∧ endsWithL a ['\n'] = true)) →
      ∃ x fuel2 prev2, reSub m fuel prev (a ++ u ++ b)
        = x ++ R ++ reSub m fuel2 prev2 b := by
  intro fuel
  induction fuel with
  | zero =>
    intro a b prev hlen _ _
    exfalso
    have hu1 : 1 ≤ u.length := by
      cases u with
      | nil => exact absurd rfl hu
      | cons _ _ => simp
    simp only [List.length_append, Nat.le_zero] at hlen
    omega
  | succ fuel ih =>
    intro a b prev hlen hb hinv
    cases a with
    | nil =>
      rcases hinv with ⟨_, hls⟩ | ⟨hne, _⟩
      · obtain ⟨k, hm⟩ := hfire prev b hb hls
        cases u with
        | nil => exact absurd rfl hu
        | cons c u2 =>
          have hm2 : m prev (c :: (u2 ++ b)) = some (k, R) := by
            have he : (c :: u2) ++ b = c :: (u2 ++ b) := by simp
            rw [← he]
            exact hm
          have hk2 : k = (c :: u2).length := by
            have hm1 : m prev ((c :: u2) ++ b) = some (k, R) := hm
            have hsk := hspan prev _ k R hm1
            rw [hsk.1, hPu]
          have hdropb : List.drop k (c :: (u2 ++ b)) = b := by
            have h2 : c :: (u2 ++ b) = (c :: u2) ++ b := by simp
            rw [h2, hk2, dropAppend _ _ _ (le_refl _), List.drop_length]
            rfl
          refine ⟨[], fuel, (List.take k (c :: (u2 ++ b))).getLast?, ?_⟩
          have he2 : ([] : List Char) ++ (c :: u2) ++ b = c :: (u2 ++ b) := by simp
          rw [he2, reSub_head_some m fuel prev c (u2 ++ b) k R hm2, hdropb]
          simp
      · exact absurd rfl hne
    | cons c a2 =>
      rcases hinv with ⟨hnil, _⟩ | ⟨_, hends⟩
      · exact absurd hnil (by simp)
      · have hlist : c :: a2 ++ u ++ b = c :: (a2 ++ u ++ b) := by simp
        cases hm : m prev (c :: (a2 ++ u ++ b)) with
        | none =>
          have hinv2 : (a2 = [] ∧ atLineStart (some c) = true) ∨
              (a2 ≠ [] ∧ endsWithL a2 ['\n'] = true) := by
            rcases endsWith_nl_cons_elim c a2 hends with ⟨h1, h2⟩ | ⟨h1, h2⟩
            · refine Or.inl ⟨h1, ?_⟩
              rw [h2]
              rfl
            · exact Or.inr ⟨h1, h2⟩
          have hlen2 : (a2 ++ u ++ b).length ≤ fuel := by
            simp only [List.length_append, List.length_cons] at hlen ⊢
            omega
          obtain ⟨x, fuel2, prev2, h⟩ := ih a2 b (some c) hlen2 hb hinv2
          refine ⟨c :: x, fuel2, prev2, ?_⟩
          rw [hlist, reSub_head_none m fuel prev c _ hm, h]
          simp
        | some kr =>
          rcases kr with ⟨k, r⟩
          have hm1 : m prev (c :: a2 ++ u ++ b) = some (k, r) := by
            rw [hlist]
            exact hm
          have hsk := hspan prev _ k r hm1
          have hk1 : 1 ≤ k := by
            rw [hsk.1]
            cases P with
            | nil => exact absurd rfl hP
            | cons p ps => simp
          have hklt : k < (c :: a2).length := by
            rcases Nat.lt_or_ge k (c :: a2).length with h1 | h2
            · exact h1
            · exfalso
              rcases Nat.eq_or_lt_of_le h2 with heq | hgt
              · have htake : (c :: a2 ++ u ++ b).take k = c :: a2 := by
                  have e1 : c :: a2 ++ u ++ b = (c :: a2) ++ (u ++ b) := by simp
                  rw [e1, ← heq, takeAppend _ _ _ (le_refl _), List.take_length]
                have hlow := (ciPref_lower_take P _).mp hsk.2
                have hlow2 : lowerL (c :: a2) = lowerL P := by
                  rw [← htake, hsk.1]
                  exact hlow.2
                have hmem : '\n' ∈ lowerL (c :: a2) := mem_lower_of_endsWith_nl _ hends
                rw [hlow2] at hmem
                exact hPnl hmem
              · have hj1 : 1 ≤ (c :: a2).length := by simp
                have hjlt : (c :: a2).length < P.length := by omega
                have hcp : ciPref (P.drop (c :: a2).length) (u ++ b) = true := by
                  apply ciPref_drop
                  · have h3 : (c :: a2) ++ (u ++ b) = c :: a2 ++ u ++ b := by simp
                    rw [h3]
                    exact hsk.2
                  · omega
                have hAbs := hcr (c :: a2).length b hj1 hjlt
                rw [hcp] at hAbs
                exact Bool.noConfusion hAbs
          have hendsk : endsWithL ((c :: a2).drop k) ['\n'] = true ∧
              (c :: a2).drop k ≠ [] := by
            rcases (endsWith_iff _ _).mp hends with ⟨x0, hx0⟩
            have hkx : k ≤ x0.length := by
              have hl0 : (c :: a2).length = x0.length + 1 := by
                rw [hx0]
                simp
              omega
            constructor
            · rw [hx0, dropAppend _ _ _ hkx, endsWith_iff]
              exact ⟨x0.drop k, rfl⟩
            · rw [hx0, dropAppend _ _ _ hkx]
              simp
          have hlen2 : ((c :: a2).drop k ++ u ++ b).length ≤ fuel := by
            simp only [List.length_append, List.length_cons, List.length_drop] at hlen ⊢
            omega
          obtain ⟨x, fuel2, prev2, h⟩ := ih ((c :: a2).drop k) b
            ((List.take k (c :: (a2 ++ u ++ b))).getLast?) hlen2 hb
            (Or.inr ⟨hendsk.2, hendsk.1⟩)
          refine ⟨r ++ x, fuel2, prev2, ?_⟩
          rw [hlist, reSub_head_some m fuel prev c _ k r hm]
          have hdrop : List.drop k (c :: (a2 ++ u ++ b)) = (c :: a2).drop k ++ u ++ b := by
            have h2 : c :: (a2 ++ u ++ b) = (c :: a2) ++ (u ++ b) := by simp
            rw [h2, dropAppend _ _ _ (le_of_lt hklt), ← List.append_assoc]
          rw [hdrop, h]
          simp

def sectionHeaders : List (List Char) :=
  [kwAttendees, kwActionItems, kwGeneralNotes, kwPersonal]

theorem claimC3_core (K : List Char) (hK : K ≠ [])
    (h1 : '\n' ∉ lowerL (K ++ [':'])) (h2 : crossOK (K ++ [':']) (K ++ [':']) = true)
    (h3 : '\n' ∉ lowerL K) (h4 : crossOK K K = true)
    (h5 : uShielded (K ++ [':']) ('\n' :: (K ++ ['\n'])) = true)
    (h6 : crossOK (K ++ [':']) ('\n' :: (K ++ ['\n'])) = true)
    (t : List Char) :
    (containsCI (wrapPat K) t = true → hdrStep K t = t) ∧
    (∀ a b, containsCI (wrapPat K) t = false →
      t = a ++ (K ++ [':']) ++ b → (a = [] ∨ endsWithL a ['\n'] = true) →
      hasSub (wrapPat K) (hdrStep K t) = true) ∧
    (∀ a b, containsCI (wrapPat K) t = false →
      (∀ a2 w b2, t = a2 ++ w ++ b2 → lowerL w = lowerL (K ++ [':']) →
        (a2 = [] ∨ endsWithL a2 ['\n'] = true) → False) →
      t = a ++ K ++ b → (a = [] ∨ endsWithL a ['\n'] = true) →
      (b = [] ∨ ∃ b3, b = '\n' :: b3) →
      hasSub (wrapPat K) (hdrStep K t) = true) ∧
    (∀ a b a2 b2, containsCI (wrapPat K) t = false →
      t = a ++ (K ++ [':']) ++ b → (a = [] ∨ endsWithL a ['\n'] = true) →
      t = a2 ++ ('\n' :: (K ++ ['\n'])) ++ b2 →
      hasSub ('\n' :: (K ++ ['\n'])) (hdrStep K t) = true) := by
  refine ⟨fun hg => hdrStep_guard_on K t hg, ?_, ?_, ?_⟩
  · intro a b hg ht hls
    exact hdrStep_wraps_colon K h1 (crossOK_sem _ _ h2) t a b hg ht hls
  · intro a b hg hnoc ht hls hb
    have hnof := hdr1_noFire_of_noColon K t hnoc
    exact hdrStep_wraps_alone K hK h3 (crossOK_sem _ _ h4) t a b hg hnof ht hls hb
  · intro a b a2 b2 hg ht hls ht2
    have hns : UNoStart (mHdr1 K) ('\n' :: (K ++ ['\n'])) :=
      shield_none (mHdr1 K) (K ++ [':']) _ (mHdr1_spanCi K) (mHdr1_needsNl K) h5
    exact (hdrStep_mixed K hns (crossOK_sem _ _ h6) t a b a2 b2 hg ht hls ht2).1

/-- Claim C3 (amended): per-keyword contract of `_format_section_headers`.
For each keyword K of the fixed set, the processing of K satisfies:
(1) if the document already contains the wrapped keyword (case-insensitively),
the step changes nothing; (2) if not, a line-start occurrence of the keyword
followed by a colon gets the wrapped keyword into the output; (3) if not,
and moreover no case-insensitive line-start occurrence of "K:" exists
anywhere, a line-start occurrence of the keyword standing alone on its line
gets wrapped; (4) but when a colon occurrence and a standalone occurrence
coexist (guard off), the standalone occurrence survives verbatim,
unwrapped — not every line-start occurrence is wrapped. -/
theorem claimC3 (K : List Char) (hKmem : K ∈ sectionHeaders) (t : List Char) :
    (containsCI (wrapPat K) t = true → hdrStep K t = t) ∧
    (∀ a b, containsCI (wrapPat K) t = false →
      t = a ++ (K ++ [':']) ++ b → (a = [] ∨ endsWithL a ['\n'] = true) →
      hasSub (wrapPat K) (hdrStep K t) = true) ∧
    (∀ a b, containsCI (wrapPat K) t = false →
      (∀ a2 w b2, t = a2 ++ w ++ b2 → lowerL w = lowerL (K ++ [':']) →
        (a2 = [] ∨ endsWithL a2 ['\n'] = true) → False) →
      t = a ++ K ++ b → (a = [] ∨ endsWithL a ['\n'] = true) →
      (b = [] ∨ ∃ b3, b = '\n' :: b3) →
      hasSub (wrapPat K) (hdrStep K t) = true) ∧
    (∀ a b a2 b2, containsCI (wrapPat K) t = false →
      t = a ++ (K ++ [':']) ++ b → (a = [] ∨ endsWithL a ['\n'] = true) →
      t = a2 ++ ('\n' :: (K ++ ['\n'])) ++ b2 →
      hasSub ('\n' :: (K ++ ['\n'])) (hdrStep K t) = true) := by
  have hK4 : K = kwAttendees ∨ K = kwActionItems ∨ K = kwGeneralNotes ∨
      K = kwPersonal := by
    simpa [sectionHeaders] using hKmem
  rcases hK4 with rfl | rfl | rfl | rfl
  · exact claimC3_core kwAttendees (by decide) (by decide) (by decide) (by decide)
      (by decide) (by decide) (by decide) t
  · exact claimC3_core kwActionItems (by decide) (by decide) (by decide) (by decide)
      (by decide) (by decide) (by decide) t
  · exact claimC3_core kwGeneralNotes (by decide) (by decide) (by decide) (by decide)
      (by decide) (by decide) (by decide) t
  · exact claimC3_core kwPersonal (by decide) (by decide) (by decide) (by decide)
      (by decide) (by decide) (by decide) t

theorem claimC3_witness :
    hasSub (wrapPat kwAttendees) (hdrStep kwAttendees ("Attendees: x".toList)) = true :=
  (claimC3 kwAttendees (by decide) ("Attendees: x".toList)).2.1 [] (" x".toList)
    (by decide) (by decide) (Or.inl rfl)

/-- Claim C2 (amended): when the header formatter wraps a keyword followed
by a colon at a line start, the colon is consumed by the replacement (not
kept outside the markers): for every text containing "Attendees: John, Mary"
at a line start, with "Attendees" not already emphasis-wrapped anywhere,
the output of `_format_section_headers` contains
"**Attendees** John, Mary" — wrapped keyword, colon deleted, original
tail intact. -/
theorem claimC2 (t a b : List Char)
    (ht : t = a ++ "Attendees: John, Mary".toList ++ b)
    (hls : a = [] ∨ endsWithL a ['\n'] = true)
    (hg : containsCI (wrapPat kwAttendees) t = false) :
    hasSub ("**Attendees** John, Mary".toList) (formatSectionHeaders t) = true := by
  have hsplit : "Attendees: John, Mary".toList
      = (kwAttendees ++ [':']) ++ " John, Mary".toList := by decide
  have ht2 : t = a ++ (kwAttendees ++ [':']) ++ (" John, Mary".toList ++ b) := by
    rw [ht, hsplit]
    simp
  have hnsv : UNoStart (mHdr1 kwAttendees) (" John, Mary".toList) :=
    shield_none _ (kwAttendees ++ [':']) _ (mHdr1_spanCi _) (mHdr1_needsNl _) (by decide)
  obtain ⟨x0, fuel2, prev2, hA⟩ := wraps_at_tail (mHdr1 kwAttendees)
    (kwAttendees ++ [':']) (kwAttendees ++ [':']) (wrapPat kwAttendees)
    (fun _ => True) (mHdr1_spanCi _) (by decide) (by decide) (by decide) rfl
    (crossOK_sem _ _ (by decide))
    (fun prev b2 _ hlsp => ⟨kwAttendees.length + 1, hdr1_fires kwAttendees prev b2 hlsp⟩)
    (a ++ (kwAttendees ++ [':']) ++ (" John, Mary".toList ++ b)).length
    a (" John, Mary".toList ++ b) none (le_refl _) trivial
    (by
      rcases hls with rfl | hend
      · exact Or.inl ⟨rfl, rfl⟩
      · exact Or.inr ⟨endsWith_ne_nil a hend, hend⟩)
  obtain ⟨y0, hcopy⟩ := copy_through (mHdr1 kwAttendees) (" John, Mary".toList) hnsv
    fuel2 0 prev2 b (by simp) (Or.inl rfl)
  have hcopy2 : reSub (mHdr1 kwAttendees) fuel2 prev2 (" John, Mary".toList ++ b)
      = " John, Mary".toList ++ y0 := by simpa using hcopy
  have hrun : runSub (mHdr1 kwAttendees) t
      = x0 ++ wrapPat kwAttendees ++ (" John, Mary".toList ++ y0) := by
    rw [ht2]
    show reSub (mHdr1 kwAttendees)
      (a ++ (kwAttendees ++ [':']) ++ (" John, Mary".toList ++ b)).length none
      (a ++ (kwAttendees ++ [':']) ++ (" John, Mary".toList ++ b)) = _
    rw [hA, hcopy2]
  have hWsplit : wrapPat kwAttendees ++ " John, Mary".toList
      = "**Attendees** John, Mary".toList := by decide
  have hrun2 : runSub (mHdr1 kwAttendees) t
      = x0 ++ "**Attendees** John, Mary".toList ++ y0 := by
    rw [hrun, ← hWsplit]
    simp
  have hciW : containsCI (wrapPat kwAttendees) (runSub (mHdr1 kwAttendees) t) = true := by
    rw [hrun]
    exact containsCI_of_hasSub _ _
      ((hasSub_iff _ _).mpr ⟨x0, " John, Mary".toList ++ y0, rfl⟩)
  have hstepA : hdrStep kwAttendees t = x0 ++ "**Attendees** John, Mary".toList ++ y0 := by
    unfold hdrStep
    rw [hdrPass_run _ _ _ hg, hdrPass_guard _ _ _ hciW, hdrPass_guard _ _ _ hciW,
      hdrPass_guard _ _ _ hciW]
    exact hrun2
  obtain ⟨x1, y1, h1⟩ := hdrStep_survives kwActionItems
    ("**Attendees** John, Mary".toList) (by decide)
    (shield_none _ (kwActionItems ++ [':']) _ (mHdr1_spanCi _) (mHdr1_needsNl _)
      (by decide))
    (crossOK_sem _ _ (by decide))
    (shield_none _ kwActionItems _ (mHdr2_spanCi _) (mHdr2_needsNl _) (by decide))
    (crossOK_sem _ _ (by decide)) x0 y0
  obtain ⟨x2, y2, h2⟩ := hdrStep_survives kwGeneralNotes
    ("**Attendees** John, Mary".toList) (by decide)
    (shield_none _ (kwGeneralNotes ++ [':']) _ (mHdr1_spanCi _) (mHdr1_needsNl _)
      (by decide))
    (crossOK_sem _ _ (by decide))
    (shield_none _ kwGeneralNotes _ (mHdr2_spanCi _) (mHdr2_needsNl _) (by decide))
    (crossOK_sem _ _ (by decide)) x1 y1
  obtain ⟨x3, y3, h3⟩ := hdrStep_survives kwPersonal
    ("**Attendees** John, Mary".toList) (by decide)
    (shield_none _ (kwPersonal ++ [':']) _ (mHdr1_spanCi _) (mHdr1_needsNl _)
      (by decide))
    (crossOK_sem _ _ (by decide))
    (shield_none _ kwPersonal _ (mHdr2_spanCi _) (mHdr2_needsNl _) (by decide))
    (crossOK_sem _ _ (by decide)) x2 y2
  unfold formatSectionHeaders
  rw [hstepA, h1, h2, h3]
  exact (hasSub_iff _ _).mpr ⟨x3, y3, rfl⟩

/-! ## Survival of star-headed occurrences and prefix occurrences -/

theorem nsH1 (K2 u : List Char) (h : uShielded (K2 ++ [':']) u = true) :
    UNoStart (mHdr1 K2) u :=
  shield_none _ _ _ (mHdr1_spanCi K2) (mHdr1_needsNl K2) h

theorem nsH2 (K2 u : List Char) (h : uShielded K2 u = true) :
    UNoStart (mHdr2 K2) u :=
  shield_none _ _ _ (mHdr2_spanCi K2) (mHdr2_needsNl K2) h

theorem hdrStep_pref (K2 u : List Char) (hK2 : K2 ≠ [])
    (hns1 : UNoStart (mHdr1 K2) u) (hns2 : UNoStart (mHdr2 K2) u)
    (b : List Char) :
    ∃ y, hdrStep K2 (u ++ b) = u ++ y := by
  unfold hdrStep
  by_cases hg : containsCI (wrapPat K2) (u ++ b) = true
  · rw [hdrPass_guard _ _ _ hg, hdrPass_guard _ _ _ hg, hdrPass_guard _ _ _ hg,
      hdrPass_guard _ _ _ hg]
    exact ⟨b, rfl⟩
  · have hgf : containsCI (wrapPat K2) (u ++ b) = false := by
      cases hgg : containsCI (wrapPat K2) (u ++ b) with
      | true => exact absurd hgg hg
      | false => rfl
    rw [hdrPass_run _ _ _ hgf]
    cases hf1 : anyFire (mHdr1 K2) none (u ++ b) with
    | true =>
      have hwrap : containsCI (wrapPat K2) (runSub (mHdr1 K2) (u ++ b)) = true :=
        fire_wrap (mHdr1 K2) K2 (mHdr1_wrapRepl K2) (u ++ b).length none _ hf1 (le_refl _)
      obtain ⟨y, hy⟩ := copy_through (mHdr1 K2) u hns1 (u ++ b).length 0 none b
        (by simp) (Or.inl rfl)
      have hy2 : runSub (mHdr1 K2) (u ++ b) = u ++ y := by
        show reSub (mHdr1 K2) (u ++ b).length none (u ++ b) = u ++ y
        simpa using hy
      rw [hdrPass_guard _ mHdr2 _ hwrap, hdrPass_guard _ mHdr3 _ hwrap,
        hdrPass_guard _ mHdr4 _ hwrap]
      exact ⟨y, hy2⟩
    | false =>
      have hr1 : runSub (mHdr1 K2) (u ++ b) = u ++ b := noFire_id _ _ none _ hf1
      rw [hr1, hdrPass_run _ _ _ hgf]
      cases hf2 : anyFire (mHdr2 K2) none (u ++ b) with
      | true =>
        have hwrap : containsCI (wrapPat K2) (runSub (mHdr2 K2) (u ++ b)) = true :=
          fire_wrap (mHdr2 K2) K2 (mHdr2_wrapRepl K2) (u ++ b).length none _ hf2
            (le_refl _)
        obtain ⟨y, hy⟩ := copy_through (mHdr2 K2) u hns2 (u ++ b).length 0 none b
          (by simp) (Or.inl rfl)
        have hy2 : runSub (mHdr2 K2) (u ++ b) = u ++ y := by
          show reSub (mHdr2 K2) (u ++ b).length none (u ++ b) = u ++ y
          simpa using hy
        rw [hdrPass_guard _ mHdr3 _ hwrap, hdrPass_guard _ mHdr4 _ hwrap]
        exact ⟨y, hy2⟩
      | false =>
        have hr2 : runSub (mHdr2 K2) (u ++ b) = u ++ b := noFire_id _ _ none _ hf2
        rw [hr2, hdrPass_noFire _ _ _ (anyFire_hdr3_false K2 _ none hf1),
          hdrPass_noFire _ _ _ (anyFire_hdr4_false K2 hK2 _ none hf2)]
        exact ⟨b, rfl⟩

theorem lower_head (W0 K : List Char) (hW : lowerL W0 = lowerL (wrapPat K)) :
    ∃ c w2, W0 = c :: w2 ∧ c.toLower = '*' := by
  have hshape : wrapPat K = '*' :: ('*' :: (K ++ "**".toList)) := rfl
  cases W0 with
  | nil =>
    exfalso
    rw [hshape] at hW
    exact absurd hW (by simp [lowerL])
  | cons c w2 =>
    refine ⟨c, w2, rfl, ?_⟩
    rw [hshape] at hW
    have h2 : c.toLower :: lowerL w2
        = '*'.toLower :: lowerL ('*' :: (K ++ "**".toList)) := hW
    injection h2 with h1 h3

theorem star_noStart (m : Matcher) (P W0 K : List Char)
    (hspan : SpanCi m P) (hnlm : NeedsNl m) (hPne : P ≠ [])
    (hW : lowerL W0 = lowerL (wrapPat K))
    (hnlK : '\n' ∉ lowerL (wrapPat K))
    (hPstar : '*' ∉ lowerL P) :
    UNoStart m W0 := by
  intro i prev b hi hprev
  rcases hprev with rfl | ⟨h1, hp⟩
  · cases hm : m prev (W0.drop 0 ++ b) with
    | none => rfl
    | some kr =>
      exfalso
      rcases kr with ⟨k, r⟩
      have hci := (hspan prev _ k r hm).2
      rw [List.drop_zero] at hci
      obtain ⟨c, w2, hW0, hc⟩ := lower_head W0 K hW
      cases P with
      | nil => exact absurd rfl hPne
      | cons p ps =>
        rw [hW0] at hci
        have h2 : (lowEq p c && ciPref ps (w2 ++ b)) = true := hci
        have h3 : lowEq p c = true := (Bool.and_eq_true_iff.mp h2).1
        have hpl : p.toLower = c.toLower := by simpa [lowEq] using h3
        rw [hc] at hpl
        apply hPstar
        show '*' ∈ p.toLower :: lowerL ps
        rw [← hpl]
        exact List.mem_cons_self _ _
  · rw [hp]
    apply hnlm
    intro he
    apply hnlK
    rw [← hW]
    have hmem : W0.getD (i - 1) ' ' ∈ W0 := by
      have hlt : i - 1 < W0.length := by omega
      rw [List.getD_eq_getElem W0 ' ' hlt]
      exact List.getElem_mem _
    have he2 : ('\n' : Char) = (W0.getD (i - 1) ' ').toLower := by
      rw [he]
      decide
    rw [he2]
    exact List.mem_map_of_mem _ hmem

theorem star_noCross (P W0 K : List Char)
    (hW : lowerL W0 = lowerL (wrapPat K)) (hPstar : '*' ∉ lowerL P) :
    UNoCross P W0 := by
  intro j b hj1 hjlt
  obtain ⟨c, w2, hW0, hc⟩ := lower_head W0 K hW
  cases hd : P.drop j with
  | nil =>
    exfalso
    have hlen : (P.drop j).length = 0 := by rw [hd]; rfl
    rw [List.length_drop] at hlen
    omega
  | cons q qs =>
    rw [hW0]
    show (lowEq q c && ciPref qs (w2 ++ b)) = false
    have hq : lowEq q c = false := by
      cases hlq : lowEq q c with
      | false => rfl
      | true =>
        exfalso
        have hpl : q.toLower = c.toLower := by simpa [lowEq] using hlq
        rw [hc] at hpl
        apply hPstar
        have hqP : q ∈ P := by
          have hqd : q ∈ P.drop j := by
            rw [hd]
            exact List.mem_cons_self _ _
          have htd : P.take j ++ P.drop j = P := List.take_append_drop j P
          rw [← htd]
          exact List.mem_append_right _ hqd
        rw [← hpl]
        exact List.mem_map_of_mem _ hqP
    rw [hq]
    rfl

theorem hdrStep_keeps_wrapped (K K2 : List Char) (hK2 : K2 ≠ [])
    (hnlK : '\n' ∉ lowerL (wrapPat K))
    (hs1 : '*' ∉ lowerL (K2 ++ [':'])) (hs2 : '*' ∉ lowerL K2)
    (t : List Char) (h : containsCI (wrapPat K) t = true) :
    containsCI (wrapPat K) (hdrStep K2 t) = true := by
  rcases (containsCI_iff _ _).mp h with ⟨x, w, y, ht, hw⟩
  have hns1 : UNoStart (mHdr1 K2) w :=
    star_noStart (mHdr1 K2) (K2 ++ [':']) w K (mHdr1_spanCi K2) (mHdr1_needsNl K2)
      (by simp) hw hnlK hs1
  have hcr1 : UNoCross (K2 ++ [':']) w := star_noCross (K2 ++ [':']) w K hw hs1
  have hns2 : UNoStart (mHdr2 K2) w :=
    star_noStart (mHdr2 K2) K2 w K (mHdr2_spanCi K2) (mHdr2_needsNl K2) hK2 hw hnlK hs2
  have hcr2 : UNoCross K2 w := star_noCross K2 w K hw hs2
  obtain ⟨x2, y2, hxy⟩ := hdrStep_survives K2 w hK2 hns1 hcr1 hns2 hcr2 x y
  rw [ht, hxy]
  exact (containsCI_iff _ _).mpr ⟨x2, w, y2, rfl, hw⟩

/-! ## Tracking a colon occurrence and a standalone occurrence together -/

def OccPair (K t : List Char) : Prop :=
  (∃ a b, t = a ++ (K ++ [':']) ++ b ∧ (a = [] ∨ endsWithL a ['\n'] = true)) ∧
  (∃ a2 b2, t = a2 ++ ('\n' :: (K ++ ['\n'])) ++ b2)

theorem c10_pre (K K2 : List Char) (hK2 : K2 ≠ [])
    (hnsP1 : UNoStart (mHdr1 K2) (K ++ [':']))
    (hnsP2 : UNoStart (mHdr2 K2) (K ++ [':']))
    (hnsN1 : UNoStart (mHdr1 K2) ('\n' :: (K ++ [':'])))
    (hcrN1 : UNoCross (K2 ++ [':']) ('\n' :: (K ++ [':'])))
    (hnsN2 : UNoStart (mHdr2 K2) ('\n' :: (K ++ [':'])))
    (hcrN2 : UNoCross K2 ('\n' :: (K ++ [':'])))
    (hnsA1 : UNoStart (mHdr1 K2) ('\n' :: (K ++ ['\n'])))
    (hcrA1 : UNoCross (K2 ++ [':']) ('\n' :: (K ++ ['\n'])))
    (hnsA2 : UNoStart (mHdr2 K2) ('\n' :: (K ++ ['\n'])))
    (hcrA2 : UNoCross K2 ('\n' :: (K ++ ['\n'])))
    (t : List Char) (h : OccPair K t) : OccPair K (hdrStep K2 t) := by
  obtain ⟨⟨a, b, ht, hls⟩, ⟨a2, b2, ht2⟩⟩ := h
  constructor
  · rcases hls with rfl | hend
    · obtain ⟨y, hy⟩ := hdrStep_pref K2 (K ++ [':']) hK2 hnsP1 hnsP2 b
      refine ⟨[], y, ?_, Or.inl rfl⟩
      have he : ([] : List Char) ++ (K ++ [':']) ++ b = (K ++ [':']) ++ b := by simp
      rw [ht, he, hy]
      simp
    · rcases (endsWith_iff _ _).mp hend with ⟨a1, ha⟩
      have ht3 : t = a1 ++ ('\n' :: (K ++ [':'])) ++ b := by
        rw [ht, ha]
        simp
      obtain ⟨x, y, hxy⟩ := hdrStep_survives K2 ('\n' :: (K ++ [':'])) hK2
        hnsN1 hcrN1 hnsN2 hcrN2 a1 b
      refine ⟨x ++ ['\n'], y, ?_, Or.inr ((endsWith_iff _ _).mpr ⟨x, rfl⟩)⟩
      rw [ht3, hxy]
      simp
  · obtain ⟨x, y, hxy⟩ := hdrStep_survives K2 ('\n' :: (K ++ ['\n'])) hK2
      hnsA1 hcrA1 hnsA2 hcrA2 a2 b2
    refine ⟨x, y, ?_⟩
    rw [ht2, hxy]

theorem c10_at (K : List Char)
    (hns : UNoStart (mHdr1 K) ('\n' :: (K ++ ['\n'])))
    (hcr : UNoCross (K ++ [':']) ('\n' :: (K ++ ['\n'])))
    (t : List Char) (h : OccPair K t) :
    containsCI (wrapPat K) (hdrStep K t) = true ∧
    ∃ x y, hdrStep K t = x ++ ('\n' :: (K ++ ['\n'])) ++ y := by
  obtain ⟨⟨a, b, ht, hls⟩, ⟨a2, b2, ht2⟩⟩ := h
  by_cases hg : containsCI (wrapPat K) t = true
  · rw [hdrStep_guard_on K t hg]
    exact ⟨hg, a2, b2, ht2⟩
  · have hgf : containsCI (wrapPat K) t = false := by
      cases hgg : containsCI (wrapPat K) t with
      | true => exact absurd hgg hg
      | false => rfl
    obtain ⟨hsub, hci⟩ := hdrStep_mixed K hns hcr t a b a2 b2 hgf ht hls ht2
    exact ⟨hci, (hasSub_iff _ _).mp hsub⟩

theorem c10_post (K K2 : List Char) (hK2 : K2 ≠ [])
    (hnlK : '\n' ∉ lowerL (wrapPat K))
    (hs1 : '*' ∉ lowerL (K2 ++ [':'])) (hs2 : '*' ∉ lowerL K2)
    (hnsA1 : UNoStart (mHdr1 K2) ('\n' :: (K ++ ['\n'])))
    (hcrA1 : UNoCross (K2 ++ [':']) ('\n' :: (K ++ ['\n'])))
    (hnsA2 : UNoStart (mHdr2 K2) ('\n' :: (K ++ ['\n'])))
    (hcrA2 : UNoCross K2 ('\n' :: (K ++ ['\n'])))
    (t : List Char)
    (h : containsCI (wrapPat K) t = true ∧
      ∃ x y, t = x ++ ('\n' :: (K ++ ['\n'])) ++ y) :
    containsCI (wrapPat K) (hdrStep K2 t) = true ∧
    ∃ x y, hdrStep K2 t = x ++ ('\n' :: (K ++ ['\n'])) ++ y := by
  obtain ⟨hci, x, y, ht⟩ := h
  refine ⟨hdrStep_keeps_wrapped K K2 hK2 hnlK hs1 hs2 t hci, ?_⟩
  obtain ⟨x2, y2, hxy⟩ := hdrStep_survives K2 _ hK2 hnsA1 hcrA1 hnsA2 hcrA2 x y
  refine ⟨x2, y2, ?_⟩
  rw [ht, hxy]

/-- Counterexample to Claim C10 as stated: in
`"Attendees:Personal**\nPersonal: a\nPersonal\nb"` the keyword Personal is
not yet emphasis-wrapped and occurs at line starts both followed by a colon
and standing alone, yet the colon-followed occurrence does NOT become
wrapped: wrapping "Attendees:" creates the substring "**Personal**" (the
closing stars of the Attendees wrap followed by the adjacent text), so the
Personal guard is already on when Personal is processed and ALL its
occurrences are skipped — the line "Personal: a" survives verbatim and no
wrapped colon occurrence "**Personal** a" is produced. -/
theorem claimC10_counterexample :
    containsCI (wrapPat kwPersonal)
      ("Attendees:Personal**\nPersonal: a\nPersonal\nb".toList) = false ∧
    formatSectionHeaders ("Attendees:Personal**\nPersonal: a\nPersonal\nb".toList)
      = "**Attendees**Personal**\nPersonal: a\nPersonal\nb".toList ∧
    hasSub ("\nPersonal: a".toList)
      (formatSectionHeaders
        ("Attendees:Personal**\nPersonal: a\nPersonal\nb".toList)) = true ∧
    hasSub ("**Personal** a".toList)
      (formatSectionHeaders
        ("Attendees:Personal**\nPersonal: a\nPersonal\nb".toList)) = false := by
  refine ⟨by decide, by decide, by decide, by decide⟩

/-- Claim C10 (amended): for every document in which a keyword K of the
fixed set is not yet emphasis-wrapped anywhere and K occurs at line-start
positions both followed by a colon and standing alone on its own line, the
output of `_format_section_headers` contains the keyword emphasis-wrapped
(case-insensitively) while every standalone occurrence `"\nK\n"` survives
verbatim, unwrapped: the per-keyword guard is re-evaluated before each
pattern and the colon patterns are tried first, so once a wrapped form of K
exists the standalone shape is never rewritten.  (The original claim's
stronger reading — that the colon occurrence itself always becomes
wrapped — fails, see the counterexample.) -/
theorem claimC10 (K t : List Char) (hKmem : K ∈ sectionHeaders)
    (_hg : containsCI (wrapPat K) t = false)
    (a b : List Char) (ht : t = a ++ (K ++ [':']) ++ b)
    (hls : a = [] ∨ endsWithL a ['\n'] = true)
    (a2 b2 : List Char) (ht2 : t = a2 ++ ('\n' :: (K ++ ['\n'])) ++ b2) :
    containsCI (wrapPat K) (formatSectionHeaders t) = true ∧
    hasSub ('\n' :: (K ++ ['\n'])) (formatSectionHeaders t) = true := by
  have h0 : OccPair K t := ⟨⟨a, b, ht, hls⟩, ⟨a2, b2, ht2⟩⟩
  have hK4 : K = kwAttendees ∨ K = kwActionItems ∨ K = kwGeneralNotes ∨
      K = kwPersonal := by
    simpa [sectionHeaders] using hKmem
  rcases hK4 with rfl | rfl | rfl | rfl
  · have h1 := c10_at kwAttendees (nsH1 _ _ (by decide))
      (crossOK_sem _ _ (by decide)) t h0
    have h2 := c10_post kwAttendees kwActionItems (by decide) (by decide) (by decide)
      (by decide) (nsH1 _ _ (by decide)) (crossOK_sem _ _ (by decide))
      (nsH2 _ _ (by decide)) (crossOK_sem _ _ (by decide)) _ h1
    have h3 := c10_post kwAttendees kwGeneralNotes (by decide) (by decide) (by decide)
      (by decide) (nsH1 _ _ (by decide)) (crossOK_sem _ _ (by decide))
      (nsH2 _ _ (by decide)) (crossOK_sem _ _ (by decide)) _ h2
    have h4 := c10_post kwAttendees kwPersonal (by decide) (by decide) (by decide)
      (by decide) (nsH1 _ _ (by decide)) (crossOK_sem _ _ (by decide))
      (nsH2 _ _ (by decide)) (crossOK_sem _ _ (by decide)) _ h3
    obtain ⟨x, y, hx⟩ := h4.2
    refine ⟨h4.1, ?_⟩
    show hasSub _ (hdrStep kwPersonal (hdrStep kwGeneralNotes
      (hdrStep kwActionItems (hdrStep kwAttendees t)))) = true
    rw [hx]
    exact (hasSub_iff _ _).mpr ⟨x, y, rfl⟩
  · have h1 := c10_pre kwActionItems kwAttendees (by decide)
      (nsH1 _ _ (by decide)) (nsH2 _ _ (by decide))
      (nsH1 _ _ (by decide)) (crossOK_sem _ _ (by decide))
      (nsH2 _ _ (by decide)) (crossOK_sem _ _ (by decide))
      (nsH1 _ _ (by decide)) (crossOK_sem _ _ (by decide))
      (nsH2 _ _ (by decide)) (crossOK_sem _ _ (by decide)) t h0
    have h2 := c10_at kwActionItems (nsH1 _ _ (by decide))
      (crossOK_sem _ _ (by decide)) _ h1
    have h3 := c10_post kwActionItems kwGeneralNotes (by decide) (by decide)
      (by decide) (by decide) (nsH1 _ _ (by decide)) (crossOK_sem _ _ (by decide))
      (nsH2 _ _ (by decide)) (crossOK_sem _ _ (by decide)) _ h2
    have h4 := c10_post kwActionItems kwPersonal (by decide) (by decide)
      (by decide) (by decide) (nsH1 _ _ (by decide)) (crossOK_sem _ _ (by decide))
      (nsH2 _ _ (by decide)) (crossOK_sem _ _ (by decide)) _ h3
    obtain ⟨x, y, hx⟩ := h4.2
    refine ⟨h4.1, ?_⟩
    show hasSub _ (hdrStep kwPersonal (hdrStep kwGeneralNotes
      (hdrStep kwActionItems (hdrStep kwAttendees t)))) = true
    rw [hx]
    exact (hasSub_iff _ _).mpr ⟨x, y, rfl⟩
  · have h1 := c10_pre kwGeneralNotes kwAttendees (by decide)
      (nsH1 _ _ (by decide)) (nsH2 _ _ (by decide))
      (nsH1 _ _ (by decide)) (crossOK_sem _ _ (by decide))
      (nsH2 _ _ (by decide)) (crossOK_sem _ _ (by decide))
      (nsH1 _ _ (by decide)) (crossOK_sem _ _ (by decide))
      (nsH2 _ _ (by decide)) (crossOK_sem _ _ (by decide)) t h0
    have h2 := c10_pre kwGeneralNotes kwActionItems (by decide)
      (nsH1 _ _ (by decide)) (nsH2 _ _ (by decide))
      (nsH1 _ _ (by decide)) (crossOK_sem _ _ (by decide))
      (nsH2 _ _ (by decide)) (crossOK_sem _ _ (by decide))
      (nsH1 _ _ (by decide)) (crossOK_sem _ _ (by decide))
      (nsH2 _ _ (by decide)) (crossOK_sem _ _ (by decide)) _ h1
    have h3 := c10_at kwGeneralNotes (nsH1 _ _ (by decide))
      (crossOK_sem _ _ (by decide)) _ h2
    have h4 := c10_post kwGeneralNotes kwPersonal (by decide) (by decide)
      (by decide) (by decide) (nsH1 _ _ (by decide)) (crossOK_sem _ _ (by decide))
      (nsH2 _ _ (by decide)) (crossOK_sem _ _ (by decide)) _ h3
    obtain ⟨x, y, hx⟩ := h4.2
    refine ⟨h4.1, ?_⟩
    show hasSub _ (hdrStep kwPersonal (hdrStep kwGeneralNotes
      (hdrStep kwActionItems (hdrStep kwAttendees t)))) = true
    rw [hx]
    exact (hasSub_iff _ _).mpr ⟨x, y, rfl⟩
  · have h1 := c10_pre kwPersonal kwAttendees (by decide)
      (nsH1 _ _ (by decide)) (nsH2 _ _ (by decide))
      (nsH1 _ _ (by decide)) (crossOK_sem _ _ (by decide))
      (nsH2 _ _ (by decide)) (crossOK_sem _ _ (by decide))
      (nsH1 _ _ (by decide)) (crossOK_sem _ _ (by decide))
      (nsH2 _ _ (by decide)) (crossOK_sem _ _ (by decide)) t h0
    have h2 := c10_pre kwPersonal kwActionItems (by decide)
      (nsH1 _ _ (by decide)) (nsH2 _ _ (by decide))
      (nsH1 _ _ (by decide)) (crossOK_sem _ _ (by decide))
      (nsH2 _ _ (by decide)) (crossOK_sem _ _ (by decide))
      (nsH1 _ _ (by decide)) (crossOK_sem _ _ (by decide))
      (nsH2 _ _ (by decide)) (crossOK_sem _ _ (by decide)) _ h1
    have h3 := c10_pre kwPersonal kwGeneralNotes (by decide)
      (nsH1 _ _ (by decide)) (nsH2 _ _ (by decide))
      (nsH1 _ _ (by decide)) (crossOK_sem _ _ (by decide))
      (nsH2 _ _ (by decide)) (crossOK_sem _ _ (by decide))
      (nsH1 _ _ (by decide)) (crossOK_sem _ _ (by decide))
      (nsH2 _ _ (by decide)) (crossOK_sem _ _ (by decide)) _ h2
    have h4 := c10_at kwPersonal (nsH1 _ _ (by decide))
      (crossOK_sem _ _ (by decide)) _ h3
    obtain ⟨x, y, hx⟩ := h4.2
    refine ⟨h4.1, ?_⟩
    show hasSub _ (hdrStep kwPersonal (hdrStep kwGeneralNotes
      (hdrStep kwActionItems (hdrStep kwAttendees t)))) = true
    rw [hx]
    exact (hasSub_iff _ _).mpr ⟨x, y, rfl⟩

theorem claimC10_witness :
    containsCI (wrapPat kwAttendees)
      (formatSectionHeaders ("Attendees: x\nAttendees\ny".toList)) = true ∧
    hasSub ('\n' :: (kwAttendees ++ ['\n']))
      (formatSectionHeaders ("Attendees: x\nAttendees\ny".toList)) = true :=
  claimC10 kwAttendees ("Attendees: x\nAttendees\ny".toList) (by decide) (by decide)
    [] (" x\nAttendees\ny".toList) (by decide) (Or.inl rfl)
    ("Attendees: x".toList) ("y".toList) (by decide)

theorem claimC2_witness :
    hasSub ("**Attendees** John, Mary".toList)
      (formatSectionHeaders ("Attendees: John, Mary".toList)) = true :=
  claimC2 ("Attendees: John, Mary".toList) [] [] (by simp) (Or.inl rfl) (by decide)

end MeetingNote
